import Mathlib

/-!
# Lesson5: container benchmark, word reversal, bubble sort

A shallow embedding of the three programs of the repository

* `Module1_Task1/timeComplexityOfCollections.cpp`
* `Module5_Task2/stringReversal.cpp`
* `Module5_Task3/bubbleSortVector.cpp`

## Conventions of the embedding

* `int` is the 32-bit two's complement integer, `size_t` the 64-bit unsigned
  integer (LP64 / LLP64).  A value of type `int` is an `Int` in
  `[-2^31, 2^31)`; storing a wider value in an `int` goes through `toInt`
  (reduction modulo `2^32`).
* A container (`std::vector<int>`, `std::list<int>`, `std::deque<int>`) is
  its shape tag together with the list of its elements, front first.
* Reference parameters become state passing: a function that mutates a
  container returns the new container.
* The clock and the random engine are oracles: a stream of readings that the
  program consumes one after the other.
* A `std::string` is the list of its characters; every `char` value is a
  `Char`.
* Signed arithmetic wraps, as in the compiled code: `int` modulo `2^32`
  (`toInt`), `long long` modulo `2^64` (`toLongLong`).
* Undefined behaviour of the library (out-of-bounds indexing, a violated
  library precondition) and ill-formed template instantiations are `none`.
-/

namespace Lesson5

/-! ## Machine integers -/

/-- Conversion of an integer value to the 32-bit `int` (modulo `2^32`). -/
def toInt (x : Int) : Int := (x + 2147483648) % 4294967296 - 2147483648

/-- Arithmetic of `size_t` is modulo `2^64`. -/
def toSizeT (x : Int) : Int := x % 18446744073709551616

/-- Smallest value of `int`. -/
def INT_MIN : Int := -2147483648

/-- Conversion of an integer value to the 64-bit `long long` (modulo
`2^64`), the representation of clock ticks and durations. -/
def toLongLong (x : Int) : Int :=
  (x + 9223372036854775808) % 18446744073709551616 - 9223372036854775808

/-! ## Module1_Task1: timeComplexityOfCollections.cpp -/

/-- The three container templates the program instantiates. -/
inductive Shape where
  | vector
  | list
  | deque
  deriving DecidableEq, Repr

/-- A sequence container of `int`: its shape and its elements, front first. -/
structure Container where
  shape : Shape
  elems : List Int
  deriving DecidableEq, Repr

/-- A freshly constructed container (`std::vector<int> vec;` and so on). -/
def Container.new (sh : Shape) : Container := ⟨sh, []⟩

/-- Member `size()`. -/
def Container.size (c : Container) : Nat := c.elems.length

/-- Member `empty()`. -/
def Container.empty (c : Container) : Bool := c.elems.isEmpty

/-- Member `clear()`. -/
def Container.clear (c : Container) : Container := { c with elems := [] }

/-- Member `push_back(x)`: all three shapes have it. -/
def Container.push_back (c : Container) (x : Int) : Container :=
  { c with elems := c.elems ++ [x] }

/-- Member `push_front(x)` of `std::list` and `std::deque`; `std::vector`
has no such member, see `profileFrontInsert`. -/
def Container.push_front (c : Container) (x : Int) : Container :=
  { c with elems := x :: c.elems }

/-- The environment of a run: the period of `high_resolution_clock` as the
fraction `periodNum / periodDen` of a second, the successive readings of
`high_resolution_clock::now()` in ticks (64-bit counts, read modulo `2^64`
by `measureTime`), and how many were taken so far. -/
structure World where
  periodNum : Nat
  periodDen : Nat
  clock : Nat → Int
  calls : Nat

/-- Call of `std::chrono::high_resolution_clock::now()`. -/
def now (w : World) : Int × World :=
  (w.clock w.calls, { w with calls := w.calls + 1 })

/-- The factor of `duration_cast` from clock ticks to microseconds: the
period divided by `1/1000000`, in lowest terms, as numerator and
denominator. -/
def conversionFactor (w : World) : Nat × Nat :=
  let g := Nat.gcd (w.periodNum * 1000000) w.periodDen
  (w.periodNum * 1000000 / g, w.periodDen / g)

/-- The expression `duration_cast<microseconds>(d).count()` on a 64-bit tick
count: multiplied by the numerator of the factor in `long long`, then
divided by its denominator with truncation toward zero. -/
def duration_cast_microseconds (w : World) (ticks : Int) : Int :=
  Int.tdiv (toLongLong (ticks * (conversionFactor w).1)) (conversionFactor w).2

/-- The difference `end - start` of `measureTime` for the next two clock
readings, a 64-bit tick count. -/
def elapsedTicks (w : World) : Int :=
  toLongLong (w.clock (w.calls + 1) - w.clock w.calls)

/-- Function `measureTime`: reads the clock, runs `func` once on the captured
state, reads the clock again, and returns the 64-bit difference of the two
readings in microseconds. -/
def measureTime {σ : Type} (func : σ → σ) (w : World) (s : σ) : Int × World × σ :=
  let (start, w1) := now w
  let s1 := func s
  let (stop, w2) := now w1
  (duration_cast_microseconds w2 (toLongLong (stop - start)), w2, s1)

/-- The loop `for (size_t i = 0; i < count; ++i) body(i)`, started at `i`
with `count - i = k` iterations left. -/
def forLoop {σ : Type} (body : Nat → σ → σ) : Nat → Nat → σ → σ
  | 0, _, s => s
  | k + 1, i, s => forLoop body k (i + 1) (body i s)

/-- What a profiler leaves behind: the returned duration, the environment,
the container, the indices handed to `container[...]`, oldest first, and the
bounds of the index distribution when one was constructed. -/
structure Profile where
  ret : Int
  world : World
  container : Container
  reads : List Int
  sampler : Option (Int × Int)

/-- Function `profileBackInsert`: `push_back(i)` for `i = 0 .. numElements-1`
inside `measureTime`; the `size_t` counter is converted to `int`. -/
def profileBackInsert (w : World) (container : Container) (numElements : Nat) : Profile :=
  let r := measureTime
    (forLoop (fun i c => c.push_back (toInt i)) numElements 0) w container
  ⟨r.1, r.2.1, r.2.2, [], none⟩

/-- Function `profileFrontInsert`: `push_front(i)` for
`i = 0 .. numElements-1` inside `measureTime`.  The instantiation for
`std::vector` does not compile. -/
def profileFrontInsert (w : World) (container : Container) (numElements : Nat) :
    Option Profile :=
  match container.shape with
  | Shape.vector => none
  | _ =>
    let r := measureTime
      (forLoop (fun i c => c.push_front (toInt i)) numElements 0) w container
    some ⟨r.1, r.2.1, r.2.2, [], none⟩

/-- The bounds given to `std::uniform_int_distribution<> dis(0, size() - 1)`:
the `size_t` difference is converted to the `int` parameter. -/
def samplerBounds (container : Container) : Int × Int :=
  (0, toInt (toSizeT ((container.size : Int) - 1)))

/-- The call `dis(gen)`: a value of `[a, b]` chosen by the raw draw `raw`;
every value of the interval is the image of some draw. -/
def uniform_int_distribution (a b : Int) (raw : Nat) : Int :=
  a + ((raw : Int) % (b - a + 1))

/-- The statement `volatile auto x = container[dis(gen)];` of the access
loop: draws an index and reads the element there.  The state is the list of
indices read so far, `none` once an index was outside the container. -/
def accessStep (rng : Nat → Nat) (container : Container) (a b : Int) (i : Nat)
    (st : Option (List Int)) : Option (List Int) :=
  match st with
  | none => none
  | some reads =>
    let idx := uniform_int_distribution a b (rng i)
    if 0 ≤ idx ∧ idx < (container.size : Int) then some (reads ++ [idx]) else none

/-- Function `profileRandomAccess`.  `rng k` is the `k`-th raw draw of the
engine `gen`.  An empty container returns `0` at once; a list returns `0`;
a vector or deque builds the distribution and reads `numAccesses` elements
inside `measureTime`.  A distribution with `b < a` and an index outside the
container are undefined behaviour. -/
def profileRandomAccess (w : World) (rng : Nat → Nat) (container : Container)
    (numAccesses : Nat) : Option Profile :=
  if container.empty then
    some ⟨0, w, container, [], none⟩
  else
    match container.shape with
    | Shape.list => some ⟨0, w, container, [], none⟩
    | _ =>
      let (a, b) := samplerBounds container
      if b < a then none
      else
        let r := measureTime
          (forLoop (accessStep rng container a b) numAccesses 0) w (some [])
        match r.2.2 with
        | none => none
        | some reads => some ⟨r.1, r.2.1, container, reads, some (a, b)⟩

/-- What a run of `main` leaves behind: the seven profiler calls in program
order, the vector and the deque as they are handed to the random-access
phase, and the three containers at exit. -/
structure MainRun where
  backVec : Profile
  backLst : Profile
  backDeq : Profile
  frontDeq : Profile
  frontLst : Profile
  vecAtAccess : Container
  deqAtAccess : Container
  accessVec : Profile
  accessDeq : Profile
  vec : Container
  lst : Container
  deq : Container

/-- The body of `main` for given values of its locals `numElements` and
`numAccesses`: three back-insertions, `clear()` on the three containers,
front-insertion on the deque and the list, random access on the vector and
the deque.  `rngVec` and `rngDeq` are the draws of the two engines. -/
def benchmark (numElements numAccesses : Nat) (w : World) (rngVec rngDeq : Nat → Nat) :
    Option MainRun :=
  let vec := Container.new Shape.vector
  let lst := Container.new Shape.list
  let deq := Container.new Shape.deque
  let backVec := profileBackInsert w vec numElements
  let backLst := profileBackInsert backVec.world lst numElements
  let backDeq := profileBackInsert backLst.world deq numElements
  let vec := backVec.container.clear
  let lst := backLst.container.clear
  let deq := backDeq.container.clear
  match profileFrontInsert backDeq.world deq numElements with
  | none => none
  | some frontDeq =>
    match profileFrontInsert frontDeq.world lst numElements with
    | none => none
    | some frontLst =>
      match profileRandomAccess frontLst.world rngVec vec numAccesses with
      | none => none
      | some accessVec =>
        match profileRandomAccess accessVec.world rngDeq frontDeq.container numAccesses with
        | none => none
        | some accessDeq =>
          some ⟨backVec, backLst, backDeq, frontDeq, frontLst, vec, frontDeq.container,
            accessVec, accessDeq, accessVec.container, frontLst.container,
            accessDeq.container⟩

/-- Function `main` of the benchmark: `numElements = 100000` and
`numAccesses = 10000`. -/
def main (w : World) (rngVec rngDeq : Nat → Nat) : Option MainRun :=
  benchmark 100000 10000 w rngVec rngDeq

/-! ## Module5_Task3: bubbleSortVector.cpp -/

/-- Body of the inner loop of `BubbleSort` at index `j`: the state is the
vector and `flag`.  With `order == 1` the pair `(j, j+1)` is read and swapped
when `v[j] > v[j+1]`; with `order == -1` when `v[j] < v[j+1]`; any other
`order` reads nothing.  An index outside the vector is `none`. -/
def innerStep (order : Int) (j : Nat) (st : List Int × Bool) : Option (List Int × Bool) :=
  if order = 1 then
    match st.1[j]?, st.1[j + 1]? with
    | some a, some b =>
      if a > b then some ((st.1.set j b).set (j + 1) a, true) else some st
    | _, _ => none
  else if order = -1 then
    match st.1[j]?, st.1[j + 1]? with
    | some a, some b =>
      if a < b then some ((st.1.set j b).set (j + 1) a, true) else some st
    | _, _ => none
  else some st

/-- The loop `for (int j = 0; j < n - i - 1; j++)`, at index `j` with `k`
iterations left. -/
def innerLoop (order : Int) : Nat → Nat → List Int × Bool → Option (List Int × Bool)
  | 0, _, st => some st
  | k + 1, j, st =>
    match innerStep order j st with
    | none => none
    | some st1 => innerLoop order k (j + 1) st1

/-- The bound `n - i - 1` of the inner loop at pass `i`, computed in `int`:
the number of iterations of `for (int j = 0; j < n - i - 1; j++)`. -/
def passLen (n : Int) (i : Nat) : Nat := (toInt (toInt (n - (i : Int)) - 1)).toNat

/-- The loop `for (int i = 0; i < n - 1; i++)`, at pass `i` with `k` passes
left: one inner loop with `flag` reset, then `break` when `flag` stayed
`false`. -/
def outerLoop (order : Int) (n : Int) : Nat → Nat → List Int → Option (List Int)
  | 0, _, v => some v
  | k + 1, i, v =>
    match innerLoop order (passLen n i) 0 (v, false) with
    | none => none
    | some (v1, flag) => if !flag then some v1 else outerLoop order n k (i + 1) v1

/-- Function `BubbleSort`.  `int n = myVector.size()` converts the size to
`int`; the bound `n - 1` of the outer loop is computed in `int`, so the
passes are `i = 0, ..., toInt (n - 1) - 1` (none when the bound is not
positive). -/
def BubbleSort (myVector : List Int) (order : Int) : Option (List Int) :=
  let n := toInt (myVector.length : Int)
  outerLoop order n (toInt (n - 1)).toNat 0 myVector

/-! ## Module5_Task2: stringReversal.cpp -/

/-- The whitespace of the classic locale, which `operator>>` skips. -/
def isspace (c : Char) : Bool :=
  c = ' ' || c = '\t' || c = '\n' || c = '\x0b' || c = '\x0c' || c = '\r'

/-- The extraction `stream >> word`: skips leading whitespace, then takes the
characters up to the next whitespace or the end.  Fails (`none`) when the
stream ends before a character of a word. -/
def extract (stream : List Char) : Option (List Char × List Char) :=
  let s1 := stream.dropWhile isspace
  if s1.isEmpty then none
  else some (s1.takeWhile (fun c => !isspace c), s1.dropWhile (fun c => !isspace c))

/-- The loop `while (stream >> word) words.push_back(word);` with a bound on
the number of iterations. -/
def splitLoop : Nat → List Char → List (List Char) → List (List Char)
  | 0, _, words => words
  | fuel + 1, stream, words =>
    match extract stream with
    | none => words
    | some (word, rest) => splitLoop fuel rest (words ++ [word])

/-- The loop `for (int i = ...; i >= 0; --i)` with `i + 1` iterations left:
appends `words[i]`, and a space unless `i == 0`. -/
def revLoop (words : List (List Char)) : Nat → List Char → Option (List Char)
  | 0, reversed => some reversed
  | i + 1, reversed =>
    match words[i]? with
    | none => none
    | some word =>
      revLoop words i (if i ≠ 0 then reversed ++ word ++ [' '] else reversed ++ word)

/-- Function `reverseWords`.  Every extraction takes at least one character,
so `str.length + 1` iterations of the splitting loop reach its end.  The
start index `words.size() - 1` is computed in `size_t` and stored in an
`int`. -/
def reverseWords (str : List Char) : Option (List Char) :=
  let words := splitLoop (str.length + 1) str []
  let i := toInt (toSizeT ((words.length : Int) - 1))
  revLoop words (i + 1).toNat []

/-! ## Auxiliary functions used in the proofs -/

/-- Whether `BubbleSort` swaps the adjacent pair `a, b` under `order`. -/
def swaps (order : Int) (a b : Int) : Bool :=
  (decide (order = 1) && decide (a > b)) || (decide (order = -1) && decide (a < b))

/-- One bubble pass over `c :: l`, written on lists: the carried element `c`
moves right past every element it must be swapped with.  Returns the new
list and whether a swap took place. -/
def bubble (order : Int) : Int → List Int → List Int × Bool
  | c, [] => ([c], false)
  | c, b :: t =>
    if swaps order c b then (b :: (bubble order c t).1, true)
    else (c :: (bubble order b t).1, (bubble order b t).2)

/-- The order that `BubbleSort` establishes: a pair is left alone iff it is
related. -/
structure SortOrder (order : Int) (R : Int → Int → Prop) : Prop where
  swaps_iff : ∀ a b, swaps order a b = true ↔ ¬ R a b
  total : ∀ a b, R a b ∨ R b a
  trans : ∀ a b c, R a b → R b c → R a c

/-- The string of `n` words `a`, each followed by one space. -/
def sentence : Nat → List Char
  | 0 => []
  | n + 1 => 'a' :: ' ' :: sentence n

/-- Modelled on the wording of the claim: the outer loop of `BubbleSort`
with the check `if (!flag) break;` removed, so that every pass runs. -/
def outerLoopNoBreak (order : Int) (n : Int) : Nat → Nat → List Int → Option (List Int)
  | 0, _, v => some v
  | k + 1, i, v =>
    match innerLoop order (passLen n i) 0 (v, false) with
    | none => none
    | some (v1, _) => outerLoopNoBreak order n k (i + 1) v1

/-- Modelled on the wording of the claim: `BubbleSort` with the early exit
removed. -/
def BubbleSortNoBreak (myVector : List Int) (order : Int) : Option (List Int) :=
  let n := toInt (myVector.length : Int)
  outerLoopNoBreak order n (toInt (n - 1)).toNat 0 myVector

/-- A clock that stands still at `0`, with a period of one nanosecond. -/
def idleWorld : World := ⟨1, 1000000000, fun _ => 0, 0⟩

/-- A clock of period one nanosecond that advances 5000 ticks a reading. -/
def busyWorld : World := ⟨1, 1000000000, fun k => 5000 * (k : Int), 0⟩

/-- Modelled on the wording of the claim: the maximal whitespace-free words
of a string, in their order. -/
def wordsOf (s : List Char) : List (List Char) :=
  (s.splitOnP isspace).filter (fun w => !w.isEmpty)

/-- Modelled on the wording of the claim: the words in reverse order, joined
by exactly one space. -/
def reverseWordsSpec (s : List Char) : List Char :=
  List.intercalate [' '] (wordsOf s).reverse

/-! ## Machine integers: basic facts -/

theorem toInt_of_small (x : Int) (h0 : 0 ≤ x) (h1 : x < 2147483648) : toInt x = x := by
  unfold toInt
  omega

theorem toInt_le (x : Int) (h0 : 0 ≤ x) : toInt x ≤ x := by
  unfold toInt
  omega

theorem toInt_lt (x : Int) : toInt x < 2147483648 := by
  unfold toInt
  omega

theorem toInt_ge (x : Int) : -2147483648 ≤ toInt x := by
  unfold toInt
  omega

/-! ## The insertion loops -/

theorem forLoop_push_back (k i : Nat) (c : Container) :
    forLoop (fun i c => Container.push_back c (toInt i)) k i c
      = ⟨c.shape, c.elems ++ (List.range' i k).map (fun m : Nat => toInt m)⟩ := by
  induction k generalizing i c with
  | zero => simp [forLoop]
  | succ k ih =>
    rw [forLoop, ih]
    simp [Container.push_back, List.range'_succ]

theorem forLoop_push_front (k i : Nat) (c : Container) :
    forLoop (fun i c => Container.push_front c (toInt i)) k i c
      = ⟨c.shape, ((List.range' i k).map (fun m : Nat => toInt m)).reverse ++ c.elems⟩ := by
  induction k generalizing i c with
  | zero => simp [forLoop]
  | succ k ih =>
    rw [forLoop, ih]
    simp [Container.push_front, List.range'_succ]

theorem profileBackInsert_container (w : World) (c : Container) (N : Nat) :
    (profileBackInsert w c N).container
      = ⟨c.shape, c.elems ++ (List.range N).map (fun m : Nat => toInt m)⟩ := by
  simp [profileBackInsert, measureTime, forLoop_push_back, List.range_eq_range']

theorem profileFrontInsert_eq (w : World) (c : Container) (N : Nat)
    (hsh : c.shape ≠ Shape.vector) :
    ∃ p, profileFrontInsert w c N = some p ∧
      p.container = ⟨c.shape, ((List.range N).map (fun m : Nat => toInt m)).reverse ++ c.elems⟩ := by
  cases c with
  | mk sh l =>
    cases sh <;>
      simp_all [profileFrontInsert, measureTime, forLoop_push_front, List.range_eq_range']

/-! ## The access loop -/

theorem uniform_int_distribution_range (b : Int) (raw : Nat) (hb : 0 ≤ b) :
    0 ≤ uniform_int_distribution 0 b raw ∧ uniform_int_distribution 0 b raw ≤ b := by
  unfold uniform_int_distribution
  have h1 : (0 : Int) < b - 0 + 1 := by omega
  have h2 := Int.emod_nonneg (raw : Int) (ne_of_gt h1)
  have h3 := Int.emod_lt_of_pos (raw : Int) h1
  omega

theorem forLoop_accessStep (rng : Nat → Nat) (c : Container) (b : Int) (hb : 0 ≤ b)
    (hsize : b < (c.size : Int)) (k i : Nat) (reads : List Int) :
    ∃ l : List Int, forLoop (accessStep rng c 0 b) k i (some reads) = some (reads ++ l) ∧
      l.length = k ∧ ∀ idx ∈ l, 0 ≤ idx ∧ idx ≤ b := by
  induction k generalizing i reads with
  | zero => exact ⟨[], by simp [forLoop]⟩
  | succ k ih =>
    have hr := uniform_int_distribution_range b (rng i) hb
    have hstep : accessStep rng c 0 b i (some reads)
        = some (reads ++ [uniform_int_distribution 0 b (rng i)]) := by
      have hin : 0 ≤ uniform_int_distribution 0 b (rng i) ∧
          uniform_int_distribution 0 b (rng i) < (c.size : Int) := ⟨hr.1, by omega⟩
      simp only [accessStep, hin, and_self, if_true]
    obtain ⟨l, hl, hlen, hmem⟩ := ih (i + 1) (reads ++ [uniform_int_distribution 0 b (rng i)])
    refine ⟨uniform_int_distribution 0 b (rng i) :: l, ?_, by simp [hlen], ?_⟩
    · rw [forLoop, hstep, hl]
      simp
    · intro idx hidx
      rcases List.mem_cons.mp hidx with h | h
      · subst h
        exact hr
      · exact hmem idx h

theorem samplerBounds_of_small (c : Container) (h1 : 1 ≤ c.size) (h2 : c.size ≤ 2147483648) :
    samplerBounds c = (0, (c.size : Int) - 1) := by
  unfold samplerBounds toInt toSizeT
  congr 1
  omega

theorem profileRandomAccess_of_empty (w : World) (rng : Nat → Nat) (c : Container)
    (M : Nat) (h : c.elems = []) :
    profileRandomAccess w rng c M = some ⟨0, w, c, [], none⟩ := by
  simp [profileRandomAccess, Container.empty, h]

theorem profileRandomAccess_of_list (w : World) (rng : Nat → Nat) (c : Container)
    (M : Nat) (h : c.shape = Shape.list) :
    profileRandomAccess w rng c M = some ⟨0, w, c, [], none⟩ := by
  unfold profileRandomAccess
  split
  · rfl
  · simp [h]

theorem profileRandomAccess_of_indexed (w : World) (rng : Nat → Nat) (c : Container)
    (M : Nat) (hsh : c.shape ≠ Shape.list) (h1 : 1 ≤ c.size) (h2 : c.size ≤ 2147483648) :
    ∃ p, profileRandomAccess w rng c M = some p ∧
      p.ret = duration_cast_microseconds w (elapsedTicks w) ∧
      p.container = c ∧
      p.sampler = some (0, (c.size : Int) - 1) ∧
      p.reads.length = M ∧
      ∀ idx ∈ p.reads, 0 ≤ idx ∧ idx ≤ (c.size : Int) - 1 := by
  have hb := samplerBounds_of_small c h1 h2
  obtain ⟨l, hl, hlen, hmem⟩ :=
    forLoop_accessStep rng c ((c.size : Int) - 1) (by omega) (by omega) M 0 []
  have hne : c.empty = false := by
    unfold Container.empty
    unfold Container.size at h1
    cases hc : c.elems with
    | nil => simp [hc] at h1
    | cons a t => rfl
  have hlt : ¬ ((c.size : Int) - 1 < 0) := by omega
  refine ⟨⟨duration_cast_microseconds w (elapsedTicks w),
    { w with calls := w.calls + 1 + 1 }, c, l, some (0, (c.size : Int) - 1)⟩, ?_, rfl, rfl, rfl,
    hlen, hmem⟩
  unfold profileRandomAccess
  rw [hne]
  cases hs : c.shape with
  | list => exact absurd hs hsh
  | vector =>
    simp only [hb, hlt, measureTime, now, hl, if_false, Bool.false_eq_true]
    rfl
  | deque =>
    simp only [hb, hlt, measureTime, now, hl, if_false, Bool.false_eq_true]
    rfl

theorem toInt_two_pow_31 : toInt ((2147483648 : Nat) : Int) = -2147483648 := by
  unfold toInt
  norm_num

theorem profileBackInsert_getElem? (w : World) (sh : Shape) (N i : Nat) (hi : i < N) :
    (profileBackInsert w (Container.new sh) N).container.elems[i]? = some (toInt (i : Int)) := by
  rw [profileBackInsert_container]
  simp only [Container.new, List.nil_append, List.getElem?_map, List.getElem?_range hi,
    Option.map_some']

theorem profileFrontInsert_getElem? (w : World) (sh : Shape) (N i : Nat)
    (hsh : sh ≠ Shape.vector) (hi : i < N) :
    ∃ p, profileFrontInsert w (Container.new sh) N = some p ∧
      p.container.elems[i]? = some (toInt ((N - 1 - i : Nat) : Int)) := by
  obtain ⟨p, hp, hc⟩ := profileFrontInsert_eq w (Container.new sh) N hsh
  refine ⟨p, hp, ?_⟩
  rw [hc]
  have h1 : N - 1 - i < N := by omega
  simp only [Container.new, List.append_nil]
  rw [List.getElem?_reverse (by simpa using hi)]
  simp only [List.length_map, List.length_range, List.getElem?_map, List.getElem?_range h1,
    Option.map_some']

theorem size_replicate (sh : Shape) (n : Nat) (x : Int) :
    Container.size ⟨sh, List.replicate n x⟩ = n := by
  simp [Container.size]

theorem empty_replicate (sh : Shape) (n : Nat) (x : Int) (hn : 0 < n) :
    Container.empty ⟨sh, List.replicate n x⟩ = false := by
  cases n with
  | zero => exact absurd hn (by decide)
  | succ m => rfl

theorem profileRandomAccess_of_bad_bound (w : World) (rng : Nat → Nat) (c : Container)
    (M : Nat) (hne : c.empty = false) (hsh : c.shape ≠ Shape.list)
    (hb : (samplerBounds c).2 < (samplerBounds c).1) :
    profileRandomAccess w rng c M = none := by
  unfold profileRandomAccess
  rw [hne]
  cases hs : c.shape with
  | list => exact absurd hs hsh
  | vector => simp [hb]
  | deque => simp [hb]

theorem profileFrontInsert_contents (w : World) (sh : Shape) (N : Nat)
    (hsh : sh ≠ Shape.vector) (hN : N ≤ 2147483648) :
    ∃ p, profileFrontInsert w (Container.new sh) N = some p ∧
      p.container.shape = sh ∧
      p.container.size = N ∧
      p.container.elems = ((List.range N).map (fun i : Nat => (i : Int))).reverse ∧
      ∀ i : Nat, i < N → p.container.elems[i]? = some ((N : Int) - 1 - (i : Int)) := by
  obtain ⟨p, hp, hc⟩ := profileFrontInsert_eq w (Container.new sh) N hsh
  have hmap : (List.range N).map (fun m : Nat => toInt m)
      = (List.range N).map (fun i : Nat => (i : Int)) := by
    apply List.map_congr_left
    intro a ha
    have := List.mem_range.mp ha
    exact toInt_of_small a (by omega) (by omega)
  refine ⟨p, hp, ?_⟩
  rw [hc]
  refine ⟨rfl, ?_, ?_, ?_⟩
  · simp [Container.new, Container.size]
  · simp only [Container.new, List.append_nil, hmap]
  · intro i hi
    have h1 : N - 1 - i < N := by omega
    simp only [Container.new, List.append_nil, hmap]
    rw [List.getElem?_reverse (by simpa using hi)]
    simp only [List.length_map, List.length_range, List.getElem?_map, List.getElem?_range h1,
      Option.map_some']
    congr 1
    omega

theorem conversionFactor_den_pos (w : World) (hden : 0 < w.periodDen) :
    0 < (conversionFactor w).2 := by
  unfold conversionFactor
  exact Nat.div_pos (Nat.gcd_le_right _ hden) (Nat.gcd_pos_of_pos_right _ hden)

theorem duration_cast_eq_zero_iff (w : World) (ticks : Int) (hden : 0 < w.periodDen) :
    duration_cast_microseconds w ticks = 0 ↔
      (toLongLong (ticks * ((conversionFactor w).1 : Int))).natAbs
        < (conversionFactor w).2 := by
  have hpos := conversionFactor_den_pos w hden
  unfold duration_cast_microseconds
  rw [← Int.natAbs_eq_zero, Int.natAbs_tdiv, Int.natAbs_ofNat]
  exact Nat.div_eq_zero_iff hpos

/-! ## Claims on the container benchmark -/

/-- C1 (amended): for every shape and every count `N ≤ 2^31`, back-insertion
profiling of a new container leaves a container of the same shape with
exactly `N` elements, the element at position `i` being the integer `i`. -/
theorem C1_backInsert_contents (w : World) (sh : Shape) (N : Nat) (hN : N ≤ 2147483648) :
    (profileBackInsert w (Container.new sh) N).container.shape = sh ∧
    (profileBackInsert w (Container.new sh) N).container.size = N ∧
    (profileBackInsert w (Container.new sh) N).container.elems
      = (List.range N).map (fun i : Nat => (i : Int)) ∧
    ∀ i : Nat, i < N →
      (profileBackInsert w (Container.new sh) N).container.elems[i]? = some (i : Int) := by
  have hmap : (List.range N).map (fun m : Nat => toInt m)
      = (List.range N).map (fun i : Nat => (i : Int)) := by
    apply List.map_congr_left
    intro a ha
    have := List.mem_range.mp ha
    exact toInt_of_small a (by omega) (by omega)
  rw [profileBackInsert_container]
  refine ⟨rfl, ?_, ?_, ?_⟩
  · simp [Container.new, Container.size]
  · simp only [Container.new, List.nil_append, hmap]
  · intro i hi
    simp only [Container.new, List.nil_append, hmap, List.getElem?_map,
      List.getElem?_range hi, Option.map_some']

/-- C1 (witness): five back-insertions into a new vector. -/
theorem C1_backInsert_contents_witness :
    (profileBackInsert idleWorld (Container.new Shape.vector) 5).container.elems
      = (List.range 5).map (fun i : Nat => (i : Int)) :=
  (C1_backInsert_contents idleWorld Shape.vector 5 (by decide)).2.2.1

/-- C1 (counterexample): with `N = 2^31 + 1` the element at position `2^31`
is `-2^31`, the `int` that the counter `2^31` converts to, and not `2^31`. -/
theorem C1_counterexample :
    (profileBackInsert idleWorld (Container.new Shape.vector) 2147483649).container.elems[
        2147483648]? = some (-2147483648) ∧
    ¬ (∀ i : Nat, i < 2147483649 →
      (profileBackInsert idleWorld (Container.new Shape.vector) 2147483649).container.elems[i]?
        = some (i : Int)) := by
  have key := profileBackInsert_getElem? idleWorld Shape.vector 2147483649 2147483648
    (by norm_num)
  rw [toInt_two_pow_31] at key
  refine ⟨key, ?_⟩
  intro h
  have h2 := h 2147483648 (by norm_num)
  rw [key] at h2
  have h3 := Option.some.inj h2
  norm_num at h3

/-- C2 (amended): for a list or a deque and every count `N ≤ 2^31`,
front-insertion profiling of a new container leaves exactly `N` elements,
the element at position `i` being `N - 1 - i`. -/
theorem C2_frontInsert_contents (w : World) (sh : Shape) (N : Nat)
    (hsh : sh ≠ Shape.vector) (hN : N ≤ 2147483648) :
    ∃ p, profileFrontInsert w (Container.new sh) N = some p ∧
      p.container.shape = sh ∧
      p.container.size = N ∧
      p.container.elems = ((List.range N).map (fun i : Nat => (i : Int))).reverse ∧
      ∀ i : Nat, i < N → p.container.elems[i]? = some ((N : Int) - 1 - (i : Int)) :=
  profileFrontInsert_contents w sh N hsh hN

/-- C2 (witness): five front-insertions into a new deque. -/
theorem C2_frontInsert_contents_witness :
    ∃ p, profileFrontInsert idleWorld (Container.new Shape.deque) 5 = some p ∧
      p.container.shape = Shape.deque ∧
      p.container.size = 5 ∧
      p.container.elems = ((List.range 5).map (fun i : Nat => (i : Int))).reverse ∧
      ∀ i : Nat, i < 5 → p.container.elems[i]? = some (((5 : Nat) : Int) - 1 - (i : Int)) :=
  C2_frontInsert_contents idleWorld Shape.deque 5 (by decide) (by decide)

/-- C2 (counterexample): with `N = 2^31 + 1` on a list, the last inserted
counter `2^31` is stored as `-2^31` at position `0`, where the claim puts
`N - 1 = 2^31`. -/
theorem C2_counterexample :
    ∃ p, profileFrontInsert idleWorld (Container.new Shape.list) 2147483649 = some p ∧
      p.container.elems[0]? = some (-2147483648) ∧
      p.container.elems[0]? ≠ some ((2147483649 : Int) - 1 - 0) := by
  obtain ⟨p, hp, hc⟩ := profileFrontInsert_getElem? idleWorld Shape.list 2147483649 0
    (by decide) (by norm_num)
  rw [show 2147483649 - 1 - 0 = 2147483648 from by norm_num, toInt_two_pow_31] at hc
  refine ⟨p, hp, hc, ?_⟩
  rw [hc]
  intro h
  have h3 := Option.some.inj h
  norm_num at h3

/-- C6: on an empty container of any shape and for every access count,
`profileRandomAccess` returns `0` without reading the clock, reads no
element, constructs no distribution and leaves the container empty. -/
theorem C6_randomAccess_empty (w : World) (rng : Nat → Nat) (sh : Shape) (M : Nat) :
    profileRandomAccess w rng (Container.new sh) M
      = some ⟨0, w, Container.new sh, [], none⟩ ∧
    (Container.new sh).elems = [] :=
  ⟨profileRandomAccess_of_empty w rng (Container.new sh) M rfl, rfl⟩

/-- C7 (amended): for a vector or deque of size `1 ≤ S ≤ 2^31` and every
access count `M`, `profileRandomAccess` builds the distribution on
`[0, S-1]`, reads `M` elements, and every index read lies in `[0, S-1]`. -/
theorem C7_randomAccess_in_bounds (w : World) (rng : Nat → Nat) (c : Container) (M : Nat)
    (hsh : c.shape = Shape.vector ∨ c.shape = Shape.deque)
    (h1 : 1 ≤ c.size) (h2 : c.size ≤ 2147483648) :
    ∃ p, profileRandomAccess w rng c M = some p ∧
      p.sampler = some (0, (c.size : Int) - 1) ∧
      p.reads.length = M ∧
      ∀ idx ∈ p.reads, 0 ≤ idx ∧ idx ≤ (c.size : Int) - 1 := by
  have hl : c.shape ≠ Shape.list := by
    rcases hsh with h | h <;> rw [h] <;> decide
  obtain ⟨p, hp, _, _, hs, hlen, hmem⟩ := profileRandomAccess_of_indexed w rng c M hl h1 h2
  exact ⟨p, hp, hs, hlen, hmem⟩

/-- C7 (witness): four accesses to a vector of three elements. -/
theorem C7_randomAccess_in_bounds_witness :
    ∃ p, profileRandomAccess busyWorld (fun k => 7 * k) ⟨Shape.vector, [10, 20, 30]⟩ 4 = some p ∧
      p.sampler = some (0, ((3 : Nat) : Int) - 1) ∧
      p.reads.length = 4 ∧
      ∀ idx ∈ p.reads, 0 ≤ idx ∧ idx ≤ ((3 : Nat) : Int) - 1 :=
  C7_randomAccess_in_bounds busyWorld (fun k => 7 * k) ⟨Shape.vector, [10, 20, 30]⟩ 4
    (Or.inl rfl) (by decide) (by decide)

/-- C7 (counterexample): for a vector of `2^31 + 1` elements the upper bound
`size() - 1 = 2^31` converts to the `int` `-2^31`; the distribution is
constructed on `(0, -2^31)`, not on `[0, S-1]`, which is undefined. -/
theorem C7_counterexample :
    samplerBounds ⟨Shape.vector, List.replicate 2147483649 0⟩ = (0, -2147483648) ∧
    profileRandomAccess idleWorld (fun _ => 0)
      ⟨Shape.vector, List.replicate 2147483649 0⟩ 1 = none := by
  have hb : samplerBounds ⟨Shape.vector, List.replicate 2147483649 0⟩ = (0, -2147483648) := by
    unfold samplerBounds
    rw [size_replicate]
    unfold toInt toSizeT
    norm_num
  refine ⟨hb, ?_⟩
  apply profileRandomAccess_of_bad_bound
  · exact empty_replicate Shape.vector 2147483649 0 (by norm_num)
  · intro h
    exact Shape.noConfusion h
  · rw [hb]
    norm_num

/-- C8: on a linked list, empty or not, and for every access count,
`profileRandomAccess` returns `0` without reading the clock, reads no element
and leaves the list as it was. -/
theorem C8_randomAccess_list (w : World) (rng : Nat → Nat) (l : List Int) (M : Nat) :
    profileRandomAccess w rng ⟨Shape.list, l⟩ M = some ⟨0, w, ⟨Shape.list, l⟩, [], none⟩ :=
  profileRandomAccess_of_list w rng ⟨Shape.list, l⟩ M rfl

/-- C9 (amended): with access count `0`, on an empty container and on a
list `profileRandomAccess` returns `0` without reading the clock, reads no
element and leaves the container as it was; on a non-empty vector or deque
of at most `2^31` elements it reads no element, leaves the container as it
was and returns what `measureTime` measures around the empty loop: the
64-bit difference of two consecutive clock readings converted to
microseconds, which (for a period with a non-zero denominator) is `0`
exactly when the converted difference is below one microsecond in absolute
value. -/
theorem C9_randomAccess_zero_accesses (w : World) (rng : Nat → Nat) (c : Container) :
    (c.elems = [] ∨ c.shape = Shape.list →
      profileRandomAccess w rng c 0 = some ⟨0, w, c, [], none⟩) ∧
    (c.elems ≠ [] → c.shape ≠ Shape.list → c.size ≤ 2147483648 →
      ∃ p, profileRandomAccess w rng c 0 = some p ∧
        p.reads = [] ∧ p.container = c ∧
        p.ret = duration_cast_microseconds w (elapsedTicks w) ∧
        (0 < w.periodDen →
          (p.ret = 0 ↔
            (toLongLong (elapsedTicks w * ((conversionFactor w).1 : Int))).natAbs
              < (conversionFactor w).2))) := by
  constructor
  · intro h
    rcases h with he | hl
    · exact profileRandomAccess_of_empty w rng c 0 he
    · exact profileRandomAccess_of_list w rng c 0 hl
  · intro he hl hsize
    have h1 : 1 ≤ c.size := by
      unfold Container.size
      exact List.length_pos.mpr he
    obtain ⟨p, hp, hret, hc, _, hlen, _⟩ :=
      profileRandomAccess_of_indexed w rng c 0 hl h1 hsize
    refine ⟨p, hp, List.length_eq_zero.mp hlen, hc, hret, ?_⟩
    intro hden
    rw [hret]
    exact duration_cast_eq_zero_iff w (elapsedTicks w) hden

/-- C9 (witness): zero accesses to a vector of one element under a clock
that stands still. -/
theorem C9_randomAccess_zero_accesses_witness :
    ∃ p, profileRandomAccess idleWorld (fun _ => 0) ⟨Shape.vector, [7]⟩ 0 = some p ∧
      p.reads = [] ∧ p.container = ⟨Shape.vector, [7]⟩ ∧
      p.ret = duration_cast_microseconds idleWorld (elapsedTicks idleWorld) ∧
      (0 < idleWorld.periodDen →
        (p.ret = 0 ↔
          (toLongLong (elapsedTicks idleWorld
            * ((conversionFactor idleWorld).1 : Int))).natAbs
            < (conversionFactor idleWorld).2)) :=
  (C9_randomAccess_zero_accesses idleWorld (fun _ => 0) ⟨Shape.vector, [7]⟩).2
    (by decide) (by decide) (by decide)

/-- C9 (counterexample): zero accesses to a vector of one element, under a
clock whose two readings around the empty loop are 5000 nanoseconds apart,
return `5` and not `0`. -/
theorem C9_counterexample :
    (profileRandomAccess busyWorld (fun _ => 0) ⟨Shape.vector, [7]⟩ 0).map (fun p => p.ret)
      = some 5 ∧
    (profileRandomAccess busyWorld (fun _ => 0) ⟨Shape.vector, [7]⟩ 0).map (fun p => p.ret)
      ≠ some 0 := by
  constructor <;> decide

/-- C10: for every count `N` and every container `c`, running
`profileBackInsert` with `N`, clearing, and running it again with `N` leaves
the container that one run with `N` on a new container of that shape leaves;
the same holds for `profileFrontInsert` on a list or deque.  The clock
readings of the three runs are arbitrary. -/
theorem C10_clear_and_rerun (w1 w2 w3 : World) (c : Container) (N : Nat) :
    (profileBackInsert w2 (profileBackInsert w1 c N).container.clear N).container
      = (profileBackInsert w3 (Container.new c.shape) N).container ∧
    (c.shape ≠ Shape.vector →
      ∃ p1 p2 p3, profileFrontInsert w1 c N = some p1 ∧
        profileFrontInsert w2 p1.container.clear N = some p2 ∧
        profileFrontInsert w3 (Container.new c.shape) N = some p3 ∧
        p2.container = p3.container) := by
  constructor
  · simp only [profileBackInsert_container, Container.clear, Container.new, List.nil_append]
  · intro hsh
    obtain ⟨p1, hp1, hc1⟩ := profileFrontInsert_eq w1 c N hsh
    have hsh1 : p1.container.clear.shape ≠ Shape.vector := by
      rw [hc1]
      exact hsh
    obtain ⟨p2, hp2, hc2⟩ := profileFrontInsert_eq w2 p1.container.clear N hsh1
    obtain ⟨p3, hp3, hc3⟩ := profileFrontInsert_eq w3 (Container.new c.shape) N hsh
    refine ⟨p1, p2, p3, hp1, hp2, hp3, ?_⟩
    rw [hc2, hc3, hc1]
    simp only [Container.clear, Container.new]

/-- C10 (witness): a deque that holds `[9, 8]`, three runs with `N = 3`. -/
theorem C10_clear_and_rerun_witness :
    (profileBackInsert busyWorld
        (profileBackInsert idleWorld ⟨Shape.deque, [9, 8]⟩ 3).container.clear 3).container
      = (profileBackInsert idleWorld (Container.new Shape.deque) 3).container ∧
    ∃ p1 p2 p3, profileFrontInsert idleWorld ⟨Shape.deque, [9, 8]⟩ 3 = some p1 ∧
        profileFrontInsert busyWorld p1.container.clear 3 = some p2 ∧
        profileFrontInsert idleWorld (Container.new Shape.deque) 3 = some p3 ∧
        p2.container = p3.container :=
  ⟨(C10_clear_and_rerun idleWorld busyWorld idleWorld ⟨Shape.deque, [9, 8]⟩ 3).1,
   (C10_clear_and_rerun idleWorld busyWorld idleWorld ⟨Shape.deque, [9, 8]⟩ 3).2 (by decide)⟩

/-! ## Bubble sort: the inner loop is one bubble pass -/

theorem innerStep_zero (order : Int) (a b : Int) (L : List Int) (f : Bool) :
    innerStep order 0 (a :: b :: L, f)
      = some (if swaps order a b then (b :: a :: L, true) else (a :: b :: L, f)) := by
  unfold innerStep swaps
  by_cases h1 : order = 1
  · by_cases hab : a > b
    · simp [h1, hab]
    · simp [h1, hab]
  · by_cases h2 : order = -1
    · by_cases hab : a < b
      · simp [h2, hab]
      · simp [h2, hab]
    · simp [h1, h2]

theorem innerStep_succ (order : Int) (j : Nat) (x : Int) (L : List Int) (f : Bool) :
    innerStep order (j + 1) (x :: L, f)
      = (innerStep order j (L, f)).map (fun r => (x :: r.1, r.2)) := by
  unfold innerStep
  simp only [List.getElem?_cons_succ, List.set_cons_succ]
  split_ifs <;> first | rfl | (split <;> first | rfl | (split_ifs <;> rfl))

theorem innerLoop_succ (order : Int) (k j : Nat) (x : Int) (L : List Int) (f : Bool) :
    innerLoop order k (j + 1) (x :: L, f)
      = (innerLoop order k j (L, f)).map (fun r => (x :: r.1, r.2)) := by
  induction k generalizing j L f with
  | zero => simp [innerLoop]
  | succ k ih =>
    rw [innerLoop, innerLoop, innerStep_succ]
    cases h : innerStep order j (L, f) with
    | none => simp
    | some st =>
      simp only [Option.map_some']
      exact ih (j + 1) st.1 st.2

theorem innerLoop_bubble (order : Int) (c : Int) (l rest : List Int) (f : Bool) :
    innerLoop order l.length 0 (c :: l ++ rest, f)
      = some ((bubble order c l).1 ++ rest, f || (bubble order c l).2) := by
  induction l generalizing c f with
  | nil => simp [innerLoop, bubble]
  | cons b t ih =>
    rw [List.length_cons, innerLoop]
    simp only [List.cons_append, innerStep_zero]
    by_cases hs : swaps order c b = true
    · simp only [hs, if_true, bubble]
      rw [innerLoop_succ]
      have := ih c true
      simp only [List.cons_append] at this
      rw [this]
      simp
    · simp only [hs, if_false, bubble, Bool.false_eq_true]
      rw [innerLoop_succ]
      have := ih b f
      simp only [List.cons_append] at this
      rw [this]
      simp

theorem bubble_perm (order : Int) (c : Int) (l : List Int) :
    (bubble order c l).1.Perm (c :: l) := by
  induction l generalizing c with
  | nil => simp [bubble]
  | cons b t ih =>
    unfold bubble
    split_ifs
    · exact ((ih c).cons b).trans (List.Perm.swap c b t)
    · exact (ih b).cons c

theorem bubble_length (order : Int) (c : Int) (l : List Int) :
    (bubble order c l).1.length = l.length + 1 := by
  simpa using (bubble_perm order c l).length_eq

theorem sortOrder_asc : SortOrder 1 (fun a b => a ≤ b) where
  swaps_iff := by
    intro a b
    simp [swaps]
  total := fun a b => le_total a b
  trans := fun _ _ _ h1 h2 => le_trans h1 h2

theorem sortOrder_desc : SortOrder (-1) (fun a b => a ≥ b) where
  swaps_iff := by
    intro a b
    simp [swaps]
  total := fun a b => le_total b a
  trans := fun _ _ _ h1 h2 => ge_trans h1 h2

theorem bubble_last (order : Int) (R : Int → Int → Prop) (hR : SortOrder order R)
    (c : Int) (l : List Int) :
    ∃ init m, (bubble order c l).1 = init ++ [m] ∧ R c m ∧ ∀ x ∈ init, R x m := by
  induction l generalizing c with
  | nil =>
    refine ⟨[], c, by simp [bubble], ?_, by simp⟩
    rcases hR.total c c with h | h <;> exact h
  | cons b t ih =>
    unfold bubble
    by_cases hs : swaps order c b = true
    · obtain ⟨init, m, he, hcm, hall⟩ := ih c
      have hbc : R b c := by
        rcases hR.total b c with h | h
        · exact h
        · exact absurd h ((hR.swaps_iff c b).mp hs)
      refine ⟨b :: init, m, by simp [hs, he], hcm, ?_⟩
      intro x hx
      rcases List.mem_cons.mp hx with h | h
      · rw [h]
        exact hR.trans b c m hbc hcm
      · exact hall x h
    · obtain ⟨init, m, he, hbm, hall⟩ := ih b
      have hcb : R c b := by
        by_contra h
        exact hs ((hR.swaps_iff c b).mpr h)
      refine ⟨c :: init, m, by simp [hs, he], hR.trans c b m hcb hbm, ?_⟩
      intro x hx
      rcases List.mem_cons.mp hx with h | h
      · rw [h]
        exact hR.trans c b m hcb hbm
      · exact hall x h

theorem bubble_no_swap (order : Int) (R : Int → Int → Prop) (hR : SortOrder order R)
    (c : Int) (l : List Int) (hf : (bubble order c l).2 = false) :
    (bubble order c l).1 = c :: l ∧ List.Pairwise R (c :: l) := by
  induction l generalizing c with
  | nil => simp [bubble]
  | cons b t ih =>
    unfold bubble at hf ⊢
    by_cases hs : swaps order c b = true
    · simp [hs] at hf
    · simp only [hs, if_false, Bool.false_eq_true] at hf ⊢
      obtain ⟨he, hp⟩ := ih b hf
      have hcb : R c b := by
        by_contra h
        exact hs ((hR.swaps_iff c b).mpr h)
      refine ⟨by rw [he], List.pairwise_cons.mpr ⟨?_, hp⟩⟩
      intro x hx
      rcases List.mem_cons.mp hx with h | h
      · rw [h]
        exact hcb
      · exact hR.trans c b x hcb ((List.pairwise_cons.mp hp).1 x h)

theorem bubble_of_pairwise (order : Int) (R : Int → Int → Prop) (hR : SortOrder order R)
    (c : Int) (l : List Int) (hp : List.Pairwise R (c :: l)) :
    bubble order c l = (c :: l, false) := by
  induction l generalizing c with
  | nil => simp [bubble]
  | cons b t ih =>
    unfold bubble
    have hcb : R c b := (List.pairwise_cons.mp hp).1 b (List.mem_cons_self b t)
    have hs : ¬ swaps order c b = true := by
      intro h
      exact (hR.swaps_iff c b).mp h hcb
    simp only [hs, if_false, Bool.false_eq_true]
    rw [ih b (List.pairwise_cons.mp hp).2]

/-! ## Bubble sort: the outer loop -/

theorem passLen_of_small (n : Int) (i : Nat) (h0 : (i : Int) < n) (h1 : n < 2147483648) :
    passLen n i = (n - (i : Int) - 1).toNat := by
  unfold passLen toInt
  omega

theorem outerCount_of_small (n : Int) (h0 : -2147483648 < n) (h1 : n < 2147483648) :
    (toInt (n - 1)).toNat = (n - 1).toNat := by
  unfold toInt
  omega

theorem outerLoop_sorts (order : Int) (R : Int → Int → Prop) (hR : SortOrder order R)
    (n : Int) (k i : Nat) (u s rest : List Int)
    (hsmall : n < 2147483648)
    (hu : u.length = k + 1) (hn : n = ((k + 1 + i : Nat) : Int))
    (hs : List.Pairwise R s) (hus : ∀ x ∈ u, ∀ y ∈ s, R x y) :
    ∃ w, outerLoop order n k i (u ++ s ++ rest) = some (w ++ rest) ∧
      w.Perm (u ++ s) ∧ List.Pairwise R w := by
  induction k generalizing i u s with
  | zero =>
    refine ⟨u ++ s, by simp [outerLoop], List.Perm.refl _, ?_⟩
    rw [List.pairwise_append]
    refine ⟨?_, hs, hus⟩
    match u, hu with
    | [c], _ => exact List.pairwise_singleton R c
  | succ k ih =>
    match u, hu with
    | c :: l, hu =>
      have hl : l.length = k + 1 := by simpa using hu
      have hcount : passLen n i = l.length := by
        rw [passLen_of_small n i (by omega) hsmall, hn, hl]
        omega
      have hinner := innerLoop_bubble order c l (s ++ rest) false
      rw [outerLoop, hcount]
      simp only [List.cons_append, List.append_assoc] at hinner ⊢
      rw [hinner]
      simp only [Bool.false_or]
      cases hf : (bubble order c l).2 with
      | false =>
        obtain ⟨he, hp⟩ := bubble_no_swap order R hR c l hf
        refine ⟨c :: l ++ s, by simp [he], List.Perm.refl _, ?_⟩
        rw [List.pairwise_append]
        exact ⟨hp, hs, hus⟩
      | true =>
        obtain ⟨init, m, he, _, hall⟩ := bubble_last order R hR c l
        have hperm := bubble_perm order c l
        have hlen := bubble_length order c l
        rw [he] at hperm hlen
        have hinit : init.length = k + 1 := by
          simp only [List.length_append, List.length_singleton] at hlen
          omega
        have hmem : ∀ x, x ∈ init ++ [m] → x ∈ c :: l := fun x hx => hperm.subset hx
        have hs1 : List.Pairwise R (m :: s) := by
          refine List.pairwise_cons.mpr ⟨?_, hs⟩
          intro y hy
          exact hus m (hmem m (by simp)) y hy
        have hus1 : ∀ x ∈ init, ∀ y ∈ m :: s, R x y := by
          intro x hx y hy
          rcases List.mem_cons.mp hy with h | h
          · rw [h]
            exact hall x hx
          · exact hus x (hmem x (by simp [hx])) y h
        obtain ⟨w, hw, hwp, hws⟩ :=
          ih (i + 1) init (m :: s) hinit (by rw [hn]; push_cast; omega) hs1 hus1
        refine ⟨w, ?_, ?_, hws⟩
        · simp only [he, List.append_assoc, List.singleton_append, List.cons_append,
            List.nil_append, Bool.not_true, Bool.false_eq_true, if_false] at hw ⊢
          exact hw
        · refine hwp.trans ?_
          have : (init ++ m :: s).Perm ((init ++ [m]) ++ s) := by simp
          exact this.trans (hperm.append_right s)

theorem BubbleSort_sorts (order : Int) (R : Int → Int → Prop) (hR : SortOrder order R)
    (v : List Int) (hlen : v.length < 2147483648) :
    ∃ w, BubbleSort v order = some w ∧ w.Perm v ∧ List.Pairwise R w := by
  cases v with
  | nil => exact ⟨[], rfl, List.Perm.refl _, List.Pairwise.nil⟩
  | cons c l =>
    have hn : toInt (((c :: l).length : Nat) : Int) = ((l.length + 1 + 0 : Nat) : Int) := by
      rw [toInt_of_small _ (by omega) (by exact_mod_cast hlen)]
      simp
    have hlt : toInt (((c :: l).length : Nat) : Int) < 2147483648 := toInt_lt _
    obtain ⟨w, hw, hp, hs⟩ := outerLoop_sorts order R hR _ l.length 0 (c :: l) [] []
      hlt (by simp) hn List.Pairwise.nil (by simp)
    refine ⟨w, ?_, by simpa using hp, hs⟩
    simp only [List.append_nil] at hw
    have hk : (toInt (toInt (((c :: l).length : Nat) : Int) - 1)).toNat = l.length := by
      rw [outerCount_of_small _ (by rw [hn]; omega) hlt, hn]
      omega
    show outerLoop order (toInt (((c :: l).length : Nat) : Int))
      (toInt (toInt (((c :: l).length : Nat) : Int) - 1)).toNat 0 (c :: l) = some w
    rw [hk]
    exact hw

theorem pairwise_adjacent (R : Int → Int → Prop) (w : List Int) (hp : List.Pairwise R w)
    (k : Nat) (h : k + 1 < w.length) : R (w[k]) (w[k + 1]) :=
  List.pairwise_iff_getElem.mp hp k (k + 1) (by omega) h (by omega)

theorem BubbleSort_no_pass (order : Int) (v : List Int)
    (h1 : toInt ((v.length : Nat) : Int) ≤ 1)
    (h2 : toInt ((v.length : Nat) : Int) ≠ INT_MIN) :
    BubbleSort v order = some v := by
  have hk : (toInt (toInt ((v.length : Nat) : Int) - 1)).toNat = 0 := by
    unfold INT_MIN at h2
    rw [outerCount_of_small _ (by have := toInt_ge ((v.length : Nat) : Int); omega)
      (toInt_lt _)]
    omega
  show outerLoop order (toInt ((v.length : Nat) : Int))
      (toInt (toInt ((v.length : Nat) : Int) - 1)).toNat 0 v = some v
  rw [hk]
  rfl

theorem not_adjacent_of_head (R : Int → Int → Prop) (a b : Int) (L : List Int)
    (hab : ¬ R a b) :
    ¬ ∃ w, some (a :: b :: L) = some w ∧
      ∀ k : Nat, ∀ h : k + 1 < w.length, R (w[k]) (w[k + 1]) := by
  rintro ⟨w, hw, hs⟩
  have hw1 := Option.some.inj hw
  subst hw1
  exact hab (hs 0 (by simp))

theorem toInt_length_big (a b x : Int) :
    toInt (((a :: b :: List.replicate 2147483648 x).length : Nat) : Int) = -2147483646 := by
  rw [List.length_cons, List.length_cons, List.length_replicate]
  unfold toInt
  norm_num

/-! ## Claims on bubble sort -/

/-- C3 (amended): for every vector of fewer than `2^31` integers (the empty
and the one-element vectors included), `BubbleSort(v, 1)` returns with a
vector in which `v[k] <= v[k+1]` for every adjacent pair and which is a
permutation of the original contents, of the same length. -/
theorem C3_bubbleSort_ascending (v : List Int) (hlen : v.length < 2147483648) :
    ∃ w, BubbleSort v 1 = some w ∧
      (∀ k : Nat, ∀ h : k + 1 < w.length, w[k] ≤ w[k + 1]) ∧
      List.Sorted (fun a b => a ≤ b) w ∧ w.Perm v ∧ w.length = v.length := by
  obtain ⟨w, hw, hp, hs⟩ := BubbleSort_sorts 1 (fun a b => a ≤ b) sortOrder_asc v hlen
  exact ⟨w, hw, fun k h => pairwise_adjacent _ w hs k h, hs, hp, hp.length_eq⟩

/-- C3 (witness): a vector of five elements. -/
theorem C3_bubbleSort_ascending_witness :
    ∃ w, BubbleSort [3, 1, 2, 5, 4] 1 = some w ∧
      (∀ k : Nat, ∀ h : k + 1 < w.length, w[k] ≤ w[k + 1]) ∧
      List.Sorted (fun a b => a ≤ b) w ∧ w.Perm [3, 1, 2, 5, 4] ∧
      w.length = [3, 1, 2, 5, 4].length :=
  C3_bubbleSort_ascending [3, 1, 2, 5, 4] (by decide)

/-- C3 (counterexample): a vector of `2^31 + 2` elements that starts `1, 0`.
Its size converts to the `int` `n = -2^31 + 2`, no pass runs, and the vector
comes back as it was, with `v[0] > v[1]`. -/
theorem C3_counterexample :
    BubbleSort (1 :: 0 :: List.replicate 2147483648 0) 1
      = some (1 :: 0 :: List.replicate 2147483648 0) ∧
    ¬ ∃ w, BubbleSort (1 :: 0 :: List.replicate 2147483648 0) 1 = some w ∧
      ∀ k : Nat, ∀ h : k + 1 < w.length, w[k] ≤ w[k + 1] := by
  have hb : BubbleSort (1 :: 0 :: List.replicate 2147483648 0) 1
      = some (1 :: 0 :: List.replicate 2147483648 0) := by
    apply BubbleSort_no_pass
    · rw [toInt_length_big]
      norm_num
    · rw [toInt_length_big]
      unfold INT_MIN
      norm_num
  refine ⟨hb, ?_⟩
  rw [hb]
  exact not_adjacent_of_head (fun a b => a ≤ b) 1 0 _ (by norm_num)

/-- C4 (amended): for every vector of fewer than `2^31` integers,
`BubbleSort(v, -1)` returns with a vector in which `v[k] >= v[k+1]` for every
adjacent pair and which is a permutation of the original contents, of the
same length. -/
theorem C4_bubbleSort_descending (v : List Int) (hlen : v.length < 2147483648) :
    ∃ w, BubbleSort v (-1) = some w ∧
      (∀ k : Nat, ∀ h : k + 1 < w.length, w[k] ≥ w[k + 1]) ∧
      List.Sorted (fun a b => a ≥ b) w ∧ w.Perm v ∧ w.length = v.length := by
  obtain ⟨w, hw, hp, hs⟩ := BubbleSort_sorts (-1) (fun a b => a ≥ b) sortOrder_desc v hlen
  exact ⟨w, hw, fun k h => pairwise_adjacent _ w hs k h, hs, hp, hp.length_eq⟩

/-- C4 (witness): a vector of five elements. -/
theorem C4_bubbleSort_descending_witness :
    ∃ w, BubbleSort [3, 1, 2, 5, 4] (-1) = some w ∧
      (∀ k : Nat, ∀ h : k + 1 < w.length, w[k] ≥ w[k + 1]) ∧
      List.Sorted (fun a b => a ≥ b) w ∧ w.Perm [3, 1, 2, 5, 4] ∧
      w.length = [3, 1, 2, 5, 4].length :=
  C4_bubbleSort_descending [3, 1, 2, 5, 4] (by decide)

/-- C4 (counterexample): a vector of `2^31 + 2` elements that starts `0, 1`.
Its size converts to the `int` `n = -2^31 + 2`, no pass runs, and the vector
comes back as it was, with `v[0] < v[1]`. -/
theorem C4_counterexample :
    BubbleSort (0 :: 1 :: List.replicate 2147483648 0) (-1)
      = some (0 :: 1 :: List.replicate 2147483648 0) ∧
    ¬ ∃ w, BubbleSort (0 :: 1 :: List.replicate 2147483648 0) (-1) = some w ∧
      ∀ k : Nat, ∀ h : k + 1 < w.length, w[k] ≥ w[k + 1] := by
  have hb : BubbleSort (0 :: 1 :: List.replicate 2147483648 0) (-1)
      = some (0 :: 1 :: List.replicate 2147483648 0) := by
    apply BubbleSort_no_pass
    · rw [toInt_length_big]
      norm_num
    · rw [toInt_length_big]
      unfold INT_MIN
      norm_num
  refine ⟨hb, ?_⟩
  rw [hb]
  exact not_adjacent_of_head (fun a b => a ≥ b) 0 1 _ (by norm_num)

/-! ## Word reversal: the splitting loop yields the words -/

theorem splitOnP_takeWhile (p : Char → Bool) (xs : List Char) :
    xs.splitOnP p = xs.takeWhile (fun c => !p c) ::
      (match xs.dropWhile (fun c => !p c) with
        | [] => []
        | _ :: r => r.splitOnP p) := by
  induction xs with
  | nil => rfl
  | cons x xs ih =>
    rw [List.splitOnP_cons]
    by_cases hx : p x = true
    · simp [hx, List.takeWhile_cons, List.dropWhile_cons]
    · simp only [hx, if_false, Bool.false_eq_true]
      rw [ih]
      simp [hx, List.takeWhile_cons, List.dropWhile_cons, List.modifyHead]

theorem wordsOf_nil : wordsOf [] = [] := rfl

theorem wordsOf_cons_space (x : Char) (xs : List Char) (hx : isspace x = true) :
    wordsOf (x :: xs) = wordsOf xs := by
  simp [wordsOf, List.splitOnP_cons, hx]

theorem wordsOf_dropWhile (s : List Char) : wordsOf (s.dropWhile isspace) = wordsOf s := by
  induction s with
  | nil => rfl
  | cons x xs ih =>
    by_cases hx : isspace x = true
    · rw [List.dropWhile_cons, if_pos hx, ih, wordsOf_cons_space x xs hx]
    · rw [List.dropWhile_cons, if_neg hx]

theorem wordsOf_word (s : List Char)
    (hne : (s.takeWhile (fun c => !isspace c)) ≠ []) :
    wordsOf s = s.takeWhile (fun c => !isspace c) ::
      wordsOf (s.dropWhile (fun c => !isspace c)) := by
  have hsplit := splitOnP_takeWhile isspace s
  unfold wordsOf
  rw [hsplit]
  have hhead : (!(s.takeWhile (fun c => !isspace c)).isEmpty) = true := by
    cases h : s.takeWhile (fun c => !isspace c) with
    | nil => exact absurd h hne
    | cons a t => rfl
  rw [List.filter_cons]
  simp only [hhead, if_true]
  congr 1
  cases hd : s.dropWhile (fun c => !isspace c) with
  | nil => rfl
  | cons c r =>
    have hc : isspace c = true := by
      have := List.head_dropWhile_not (fun c => !isspace c) s (by rw [hd]; simp)
      simpa [hd] using this
    simp only [List.splitOnP_cons, hc, if_true]
    rw [List.filter_cons]
    simp

theorem extract_none (s : List Char) (h : extract s = none) : wordsOf s = [] := by
  unfold extract at h
  by_cases he : (s.dropWhile isspace).isEmpty = true
  · rw [← wordsOf_dropWhile, List.isEmpty_iff.mp he]
    rfl
  · simp [he] at h

theorem extract_some (s word rest : List Char) (h : extract s = some (word, rest)) :
    wordsOf s = word :: wordsOf rest ∧ rest.length < s.length ∧ word ≠ [] := by
  unfold extract at h
  by_cases he : (s.dropWhile isspace).isEmpty = true
  · simp [he] at h
  · simp only [he, if_false, Bool.false_eq_true, Option.some.injEq, Prod.mk.injEq] at h
    obtain ⟨hw, hr⟩ := h
    have hne : s.dropWhile isspace ≠ [] := fun hnil => he (by rw [hnil]; rfl)
    have hhead := List.head_dropWhile_not isspace s hne
    have hword : (s.dropWhile isspace).takeWhile (fun c => !isspace c) ≠ [] := by
      cases hd : s.dropWhile isspace with
      | nil => exact absurd hd hne
      | cons a t =>
        have ha : isspace a = false := by simpa [hd] using hhead
        simp [List.takeWhile_cons, ha]
    have hwords := wordsOf_word (s.dropWhile isspace) hword
    rw [wordsOf_dropWhile, hw, hr] at hwords
    refine ⟨hwords, ?_, by rw [← hw]; exact hword⟩
    have hlen1 : (s.dropWhile isspace).length ≤ s.length :=
      (List.dropWhile_sublist isspace).length_le
    have hlen2 := congrArg List.length
      (List.takeWhile_append_dropWhile (fun c => !isspace c) (s.dropWhile isspace))
    rw [List.length_append, hw, hr] at hlen2
    have hpos : 0 < word.length := by
      rw [← hw]
      exact List.length_pos.mpr hword
    omega

theorem splitLoop_eq (fuel : Nat) (s : List Char) (ws : List (List Char))
    (hfuel : s.length < fuel) : splitLoop fuel s ws = ws ++ wordsOf s := by
  induction fuel generalizing s ws with
  | zero => exact absurd hfuel (Nat.not_lt_zero _)
  | succ fuel ih =>
    rw [splitLoop]
    cases h : extract s with
    | none => simp [extract_none s h]
    | some r =>
      obtain ⟨word, rest⟩ := r
      obtain ⟨hw, hlen, hnonempty⟩ := extract_some s word rest h
      simp only
      rw [ih rest (ws ++ [word]) (by omega), hw]
      simp

/-! ## Word reversal: the joining loop -/

theorem intercalate_cons_cons (sep w x : List Char) (t : List (List Char)) :
    List.intercalate sep (w :: x :: t) = w ++ sep ++ List.intercalate sep (x :: t) := by
  simp [List.intercalate]

theorem intercalate_singleton (sep w : List Char) : List.intercalate sep [w] = w := by
  simp [List.intercalate]

theorem revLoop_eq (words : List (List Char)) (k : Nat) (acc : List Char)
    (hk : k ≤ words.length) :
    revLoop words k acc = some (acc ++ List.intercalate [' '] (words.take k).reverse) := by
  induction k generalizing acc with
  | zero => simp [revLoop, List.intercalate]
  | succ k ih =>
    have hlt : k < words.length := by omega
    have hget : words[k]? = some (words[k]) := List.getElem?_eq_getElem hlt
    have htake : (words.take (k + 1)).reverse = words[k] :: (words.take k).reverse := by
      rw [List.take_succ, hget]
      simp
    rw [revLoop, hget, htake]
    simp only
    rw [ih _ (by omega)]
    cases k with
    | zero => simp [intercalate_singleton, List.intercalate]
    | succ m =>
      have hne : (words.take (m + 1)).reverse ≠ [] := by
        intro h
        have h2 := congrArg List.length h
        simp only [List.length_reverse, List.length_take, List.length_nil] at h2
        omega
      cases hr : (words.take (m + 1)).reverse with
      | nil => exact absurd hr hne
      | cons x t =>
        rw [intercalate_cons_cons]
        simp

theorem reverseWords_eq (s : List Char) :
    reverseWords s = revLoop (wordsOf s)
      (toInt (toSizeT (((wordsOf s).length : Int) - 1)) + 1).toNat [] := by
  unfold reverseWords
  rw [splitLoop_eq (s.length + 1) s [] (Nat.lt_succ_self _)]
  simp

theorem wordsOf_sentence (n : Nat) : wordsOf (sentence n) = List.replicate n ['a'] := by
  induction n with
  | zero => rfl
  | succ n ih =>
    have ha : isspace 'a' = false := by decide
    have hsp : isspace ' ' = true := by decide
    have htw : (sentence (n + 1)).takeWhile (fun c => !isspace c) = ['a'] := by
      simp [sentence, List.takeWhile_cons, ha, hsp]
    have hdw : (sentence (n + 1)).dropWhile (fun c => !isspace c) = ' ' :: sentence n := by
      simp [sentence, List.dropWhile_cons, ha, hsp]
    rw [wordsOf_word _ (by rw [htw]; simp), htw, hdw, wordsOf_cons_space _ _ hsp, ih,
      List.replicate_succ]

theorem reverseWordsSpec_sentence_ne_nil (n : Nat) (hn : 0 < n) :
    reverseWordsSpec (sentence n) ≠ [] := by
  unfold reverseWordsSpec
  rw [wordsOf_sentence, List.reverse_replicate]
  cases n with
  | zero => exact absurd hn (by decide)
  | succ m =>
    rw [List.replicate_succ]
    cases m with
    | zero => simp [List.intercalate]
    | succ j =>
      rw [List.replicate_succ, intercalate_cons_cons]
      simp

theorem extract_word (s word rest : List Char) (h : extract s = some (word, rest)) :
    word ≠ [] ∧ ∀ c ∈ word, isspace c = false := by
  obtain ⟨hw, hlen, hnonempty⟩ := extract_some s word rest h
  refine ⟨hnonempty, ?_⟩
  unfold extract at h
  by_cases he : (s.dropWhile isspace).isEmpty = true
  · simp [he] at h
  · simp only [he, if_false, Bool.false_eq_true, Option.some.injEq, Prod.mk.injEq] at h
    obtain ⟨hword, hrest⟩ := h
    intro c hc
    rw [← hword] at hc
    simpa using List.mem_takeWhile_imp hc

theorem wordsOf_mem_aux (n : Nat) (s : List Char) (hn : s.length < n) :
    ∀ w ∈ wordsOf s, w ≠ [] ∧ ∀ c ∈ w, isspace c = false := by
  induction n generalizing s with
  | zero => exact absurd hn (Nat.not_lt_zero _)
  | succ n ih =>
    cases h : extract s with
    | none =>
      rw [extract_none s h]
      intro w hw
      exact absurd hw (List.not_mem_nil w)
    | some r =>
      obtain ⟨word, rest⟩ := r
      obtain ⟨hw, hlen, hnonempty⟩ := extract_some s word rest h
      rw [hw]
      intro w hmem
      rcases List.mem_cons.mp hmem with h1 | h1
      · rw [h1]
        exact extract_word s word rest h
      · exact ih rest (by omega) w h1

theorem wordsOf_mem (s : List Char) :
    ∀ w ∈ wordsOf s, w ≠ [] ∧ ∀ c ∈ w, isspace c = false :=
  wordsOf_mem_aux (s.length + 1) s (Nat.lt_succ_self _)

theorem intercalate_ne_nil (sep x : List Char) (t : List (List Char)) (hx : x ≠ []) :
    List.intercalate sep (x :: t) ≠ [] := by
  cases t with
  | nil => simpa [intercalate_singleton] using hx
  | cons y t =>
    rw [intercalate_cons_cons]
    simp [hx]

theorem intercalate_head (L : List (List Char))
    (hL : ∀ w ∈ L, w ≠ [] ∧ ∀ c ∈ w, isspace c = false) (c : Char)
    (hc : (List.intercalate [' '] L).head? = some c) : isspace c = false := by
  cases L with
  | nil => simp [List.intercalate] at hc
  | cons w t =>
    obtain ⟨hne, hall⟩ := hL w (List.mem_cons_self w t)
    cases w with
    | nil => exact absurd rfl hne
    | cons a w1 =>
      have hca : c = a := by
        cases t with
        | nil =>
          rw [intercalate_singleton] at hc
          simpa using hc.symm
        | cons y t =>
          rw [intercalate_cons_cons] at hc
          simpa using hc.symm
      rw [hca]
      exact hall a (List.mem_cons_self a w1)

theorem intercalate_last (L : List (List Char))
    (hL : ∀ w ∈ L, w ≠ [] ∧ ∀ c ∈ w, isspace c = false) (c : Char)
    (hc : (List.intercalate [' '] L).getLast? = some c) : isspace c = false := by
  induction L with
  | nil => simp [List.intercalate] at hc
  | cons w t ih =>
    cases t with
    | nil =>
      rw [intercalate_singleton] at hc
      exact (hL w (List.mem_cons_self w [])).2 c (List.mem_of_getLast?_eq_some hc)
    | cons y t =>
      have hy := (hL y (by simp)).1
      rw [intercalate_cons_cons,
        List.getLast?_append_of_ne_nil _ (intercalate_ne_nil [' '] y t hy)] at hc
      exact ih (fun w1 hw1 => hL w1 (List.mem_cons_of_mem w hw1)) hc

/-! ## Claims on word reversal -/

/-- C5 (amended): for every input string with at most `2^31` words,
`reverseWords` returns the maximal whitespace-free words of the string taken
in reverse order and joined by exactly one space; the words are non-empty
and free of whitespace, and the result neither starts nor ends with
whitespace. -/
theorem C5_reverseWords_spec (s : List Char) (hwords : (wordsOf s).length ≤ 2147483648) :
    reverseWords s = some (reverseWordsSpec s) ∧
    (∀ w ∈ wordsOf s, w ≠ [] ∧ ∀ c ∈ w, isspace c = false) ∧
    (∀ c, (reverseWordsSpec s).head? = some c → isspace c = false) ∧
    (∀ c, (reverseWordsSpec s).getLast? = some c → isspace c = false) := by
  have hrev : ∀ w ∈ (wordsOf s).reverse, w ≠ [] ∧ ∀ c ∈ w, isspace c = false :=
    fun w hw => wordsOf_mem s w (List.mem_reverse.mp hw)
  refine ⟨?_, wordsOf_mem s, intercalate_head _ hrev, intercalate_last _ hrev⟩
  rw [reverseWords_eq]
  have hk : (toInt (toSizeT (((wordsOf s).length : Int) - 1)) + 1).toNat
      = (wordsOf s).length := by
    unfold toInt toSizeT
    omega
  rw [hk, revLoop_eq _ _ _ (le_refl _), List.take_length]
  rfl

/-- C5 (witness): a sentence of three words with leading, doubled and
trailing spaces. -/
theorem C5_reverseWords_spec_witness :
    reverseWords "  hello  big world ".toList
      = some (reverseWordsSpec "  hello  big world ".toList) :=
  (C5_reverseWords_spec "  hello  big world ".toList (by decide)).1

/-- C5 (counterexample): for the string of `2^31 + 1` words `a` the start
index `words.size() - 1 = 2^31` is stored in the `int` as `-2^31`, the loop
body never runs and the result is empty, while the words joined in reverse
order are not. -/
theorem C5_counterexample :
    reverseWords (sentence 2147483649) = some [] ∧
    reverseWordsSpec (sentence 2147483649) ≠ [] := by
  constructor
  · rw [reverseWords_eq, wordsOf_sentence, List.length_replicate]
    have hk : (toInt (toSizeT (((2147483649 : Nat) : Int) - 1)) + 1).toNat = 0 := by
      unfold toInt toSizeT
      norm_num
    rw [hk]
    rfl
  · exact reverseWordsSpec_sentence_ne_nil 2147483649 (by norm_num)

/-! ## The timer and the frame of back-insertion -/

theorem profileBackInsert_getElem?_append (w : World) (c : Container) (N i : Nat)
    (hi : i < N) :
    (profileBackInsert w c N).container.elems[c.size + i]? = some (toInt (i : Int)) := by
  rw [profileBackInsert_container]
  simp only [Container.size]
  rw [List.getElem?_append_right (Nat.le_add_right _ _), Nat.add_sub_cancel_left]
  simp only [List.getElem?_map, List.getElem?_range hi, Option.map_some']

theorem append_range_getElem? (l : List Int) (N i : Nat) (hi : i < N) :
    (l ++ (List.range N).map (fun i : Nat => (i : Int)))[l.length + i]? = some (i : Int) := by
  rw [List.getElem?_append_right (Nat.le_add_right _ _), Nat.add_sub_cancel_left]
  simp only [List.getElem?_map, List.getElem?_range hi, Option.map_some']

/-- C12 (amended): for every container `c` and every count `N`,
`profileBackInsert` keeps the shape, keeps the existing elements as a prefix
in their order and lets the size grow by exactly `N`; for `N ≤ 2^31` the
container is `c` followed by `0, 1, ..., N-1`. -/
theorem C12_backInsert_frame (w : World) (c : Container) (N : Nat) :
    (profileBackInsert w c N).container.shape = c.shape ∧
    (profileBackInsert w c N).container.size = c.size + N ∧
    (profileBackInsert w c N).container.elems.take c.size = c.elems ∧
    (N ≤ 2147483648 → (profileBackInsert w c N).container.elems
      = c.elems ++ (List.range N).map (fun i : Nat => (i : Int))) := by
  rw [profileBackInsert_container]
  refine ⟨rfl, ?_, ?_, ?_⟩
  · simp [Container.size]
  · simp [Container.size]
  · intro hN
    have hmap : (List.range N).map (fun m : Nat => toInt m)
        = (List.range N).map (fun i : Nat => (i : Int)) := by
      apply List.map_congr_left
      intro a ha
      have := List.mem_range.mp ha
      exact toInt_of_small a (by omega) (by omega)
    rw [hmap]

/-- C12 (witness): three back-insertions into a list that holds `[9, 8]`. -/
theorem C12_backInsert_frame_witness :
    (profileBackInsert idleWorld ⟨Shape.list, [9, 8]⟩ 3).container.elems
      = [9, 8] ++ (List.range 3).map (fun i : Nat => (i : Int)) :=
  (C12_backInsert_frame idleWorld ⟨Shape.list, [9, 8]⟩ 3).2.2.2 (by decide)

/-- C12 (counterexample): a vector that holds `[7]` and `N = 2^31 + 1`: the
element appended for the counter `2^31` is `-2^31`, so the container is not
`[7]` followed by `0, ..., N-1`. -/
theorem C12_counterexample :
    (profileBackInsert idleWorld ⟨Shape.vector, [7]⟩ 2147483649).container.elems[
        2147483649]? = some (-2147483648) ∧
    (profileBackInsert idleWorld ⟨Shape.vector, [7]⟩ 2147483649).container.elems
      ≠ [7] ++ (List.range 2147483649).map (fun i : Nat => (i : Int)) := by
  have key := profileBackInsert_getElem?_append idleWorld ⟨Shape.vector, [7]⟩
    2147483649 2147483648 (by norm_num)
  have hidx : Container.size ⟨Shape.vector, [7]⟩ + 2147483648 = 2147483649 := by
    simp [Container.size]
  rw [toInt_two_pow_31, hidx] at key
  refine ⟨key, ?_⟩
  intro h
  have h2 := append_range_getElem? [7] 2147483649 2147483648 (by norm_num)
  have hidx2 : ([7] : List Int).length + 2147483648 = 2147483649 := by simp
  rw [hidx2, ← h, key] at h2
  have h3 := Option.some.inj h2
  norm_num at h3

/-! ## The benchmark driver -/

theorem profileBackInsert_shape (w : World) (c : Container) (N : Nat) :
    (profileBackInsert w c N).container.clear = Container.new c.shape := by
  rw [profileBackInsert_container]
  rfl

theorem benchmark_access_phase (N M : Nat) (w : World) (rngVec rngDeq : Nat → Nat)
    (h1 : 1 ≤ N) (h2 : N ≤ 2147483648) :
    ∃ r, benchmark N M w rngVec rngDeq = some r ∧
      r.vecAtAccess = Container.new Shape.vector ∧
      r.accessVec.ret = 0 ∧ r.accessVec.reads = [] ∧ r.accessVec.sampler = none ∧
      r.accessVec.world = r.frontLst.world ∧
      r.deqAtAccess.shape = Shape.deque ∧
      r.deqAtAccess.size = N ∧
      r.deqAtAccess.elems = ((List.range N).map (fun i : Nat => (i : Int))).reverse ∧
      (∀ i : Nat, i < N → r.deqAtAccess.elems[i]? = some ((N : Int) - 1 - (i : Int))) := by
  unfold benchmark
  simp only [profileBackInsert_shape]
  obtain ⟨fd, hfd, hfdshape, hfdsize, hfdelems, hfdget⟩ :=
    profileFrontInsert_contents
      (profileBackInsert
        (profileBackInsert (profileBackInsert w (Container.new Shape.vector) N).world
          (Container.new Shape.list) N).world (Container.new Shape.deque) N).world
      Shape.deque N (by decide) h2
  obtain ⟨fl, hfl, _⟩ := profileFrontInsert_eq fd.world (Container.new Shape.list) N
    (by decide)
  have hav := profileRandomAccess_of_empty fl.world rngVec (Container.new Shape.vector) M rfl
  obtain ⟨ad, had, _⟩ := profileRandomAccess_of_indexed fl.world rngDeq fd.container M
    (by rw [hfdshape]; decide) (by omega) (by omega)
  simp only [Container.new] at hfd hfl hav ⊢
  rw [hfd]
  simp only
  rw [hfl]
  simp only
  rw [hav]
  simp only
  rw [had]
  exact ⟨_, rfl, rfl, rfl, rfl, rfl, rfl, hfdshape, hfdsize, hfdelems, hfdget⟩

/-- C14: in `main`, for every clock and every random stream, the vector
handed to the random-access phase is empty, so `profileRandomAccess(vec,
10000)` returns `0` without reading the clock, reads no element and builds
no distribution, while the deque handed to the same phase holds the 100000
elements `99999, ..., 0`. -/
theorem C14_main_random_access_phase (w : World) (rngVec rngDeq : Nat → Nat) :
    ∃ r, main w rngVec rngDeq = some r ∧
      r.vecAtAccess = Container.new Shape.vector ∧
      r.accessVec.ret = 0 ∧ r.accessVec.reads = [] ∧ r.accessVec.sampler = none ∧
      r.accessVec.world = r.frontLst.world ∧
      r.deqAtAccess.shape = Shape.deque ∧
      r.deqAtAccess.size = 100000 ∧
      r.deqAtAccess.elems = ((List.range 100000).map (fun i : Nat => (i : Int))).reverse ∧
      (∀ i : Nat, i < 100000 →
        r.deqAtAccess.elems[i]? = some (((100000 : Nat) : Int) - 1 - (i : Int))) :=
  benchmark_access_phase 100000 10000 w rngVec rngDeq (by norm_num) (by norm_num)

/-! ## Bubble sort: passes without a swap, and the loop without the early exit -/

theorem innerLoop_pass (order : Int) (m : Nat) (v : List Int) (f : Bool)
    (hm : m + 1 ≤ v.length) :
    ∃ c l rest, v = c :: l ++ rest ∧ l.length = m ∧
      innerLoop order m 0 (v, f)
        = some ((bubble order c l).1 ++ rest, f || (bubble order c l).2) := by
  cases v with
  | nil => simp at hm
  | cons c t =>
    have ht : m ≤ t.length := by simpa using hm
    have hl : (t.take m).length = m := by simp [ht]
    refine ⟨c, t.take m, t.drop m, by simp, hl, ?_⟩
    have h := innerLoop_bubble order c (t.take m) (t.drop m) f
    rw [hl] at h
    simpa using h

theorem bubble_flag_false (order : Int) (c : Int) (l : List Int)
    (hf : (bubble order c l).2 = false) :
    (bubble order c l).1 = c :: l ∧
      List.Chain (fun a b => swaps order a b = false) c l := by
  induction l generalizing c with
  | nil => simp [bubble]
  | cons b t ih =>
    unfold bubble at hf ⊢
    by_cases hs : swaps order c b = true
    · simp [hs] at hf
    · simp only [hs, if_false, Bool.false_eq_true] at hf ⊢
      obtain ⟨he, hc⟩ := ih b hf
      exact ⟨by rw [he], List.Chain.cons (by simpa using hs) hc⟩

theorem bubble_of_chain (order : Int) (c : Int) (l : List Int)
    (hc : List.Chain (fun a b => swaps order a b = false) c l) :
    bubble order c l = (c :: l, false) := by
  induction l generalizing c with
  | nil => simp [bubble]
  | cons b t ih =>
    unfold bubble
    cases hc with
    | cons hcb ht =>
      simp only [hcb, if_false, Bool.false_eq_true]
      rw [ih b ht]

theorem chain_take_of_le (R : Int → Int → Prop) (v : List Int) (p q : Nat) (hq : q ≤ p)
    (h : List.Chain' R (v.take p)) : List.Chain' R (v.take q) := by
  have h2 : v.take q = (v.take p).take q := by
    rw [List.take_take, Nat.min_eq_left hq]
  rw [h2]
  exact h.take q

theorem innerLoop_no_swap (order : Int) (m : Nat) (v : List Int)
    (hb : m = 0 ∨ m + 1 ≤ v.length)
    (hch : List.Chain' (fun a b => swaps order a b = false) (v.take (m + 1))) :
    innerLoop order m 0 (v, false) = some (v, false) := by
  rcases hb with h0 | hm
  · rw [h0]
    rfl
  · obtain ⟨c, l, rest, hv, hl, hin⟩ := innerLoop_pass order m v false hm
    have htake : v.take (m + 1) = c :: l := by
      rw [hv, ← hl]
      simp
    rw [htake] at hch
    have hbub := bubble_of_chain order c l hch
    rw [hin, hbub, hv]
    rfl

theorem outerLoopNoBreak_stable (order : Int) (n : Int) (k i : Nat) (v : List Int)
    (hmono : ∀ j : Nat, i ≤ j → j < i + k → passLen n (j + 1) ≤ passLen n j)
    (hb : passLen n i = 0 ∨ passLen n i + 1 ≤ v.length)
    (hch : List.Chain' (fun a b => swaps order a b = false) (v.take (passLen n i + 1))) :
    outerLoopNoBreak order n k i v = some v := by
  induction k generalizing i with
  | zero => rfl
  | succ k ih =>
    rw [outerLoopNoBreak, innerLoop_no_swap order _ v hb hch]
    simp only
    have hle : passLen n (i + 1) ≤ passLen n i := hmono i (le_refl i) (by omega)
    apply ih (i + 1)
    · intro j hj1 hj2
      exact hmono j (by omega) (by omega)
    · rcases hb with h0 | hm
      · left
        omega
      · right
        omega
    · exact chain_take_of_le _ v _ _ (by omega) hch

theorem chain'_take_one (R : Int → Int → Prop) (v : List Int) :
    List.Chain' R (v.take 1) := by
  cases v with
  | nil => simp
  | cons a t => simp

theorem outerLoop_eq_noBreak (order : Int) (n : Int) (k i : Nat) (v : List Int)
    (hmono : ∀ j : Nat, i ≤ j → j < i + k → passLen n (j + 1) ≤ passLen n j)
    (hb : passLen n i = 0 ∨ passLen n i + 1 ≤ v.length) :
    ∃ w, outerLoop order n k i v = some w ∧ outerLoopNoBreak order n k i v = some w ∧
      w.length = v.length := by
  induction k generalizing i v with
  | zero => exact ⟨v, rfl, rfl, rfl⟩
  | succ k ih =>
    have hle : passLen n (i + 1) ≤ passLen n i := hmono i (le_refl i) (by omega)
    have hmono1 : ∀ j : Nat, i + 1 ≤ j → j < i + 1 + k →
        passLen n (j + 1) ≤ passLen n j :=
      fun j hj1 hj2 => hmono j (by omega) (by omega)
    rcases hb with h0 | hm
    · have hin : innerLoop order (passLen n i) 0 (v, false) = some (v, false) := by
        rw [h0]
        rfl
      refine ⟨v, ?_, ?_, rfl⟩
      · rw [outerLoop, hin]
        rfl
      · rw [outerLoopNoBreak, hin]
        simp only
        apply outerLoopNoBreak_stable _ _ _ _ _ hmono1
        · left
          omega
        · have h1 : passLen n (i + 1) + 1 = 1 := by omega
          rw [h1]
          exact chain'_take_one _ v
    · obtain ⟨c, l, rest, hv, hl, hin⟩ :=
        innerLoop_pass order (passLen n i) v false hm
      have hlen : ((bubble order c l).1 ++ rest).length = v.length := by
        rw [hv]
        simp only [List.length_append, List.length_cons, bubble_length]
      cases hf : (bubble order c l).2 with
      | true =>
        obtain ⟨w, hw1, hw2, hw3⟩ := ih (i + 1) ((bubble order c l).1 ++ rest) hmono1
          (by right; omega)
        refine ⟨w, ?_, ?_, by omega⟩
        · rw [outerLoop, hin, hf]
          simpa using hw1
        · rw [outerLoopNoBreak, hin]
          simpa using hw2
      | false =>
        obtain ⟨he, hc⟩ := bubble_flag_false order c l hf
        have hv1 : (bubble order c l).1 ++ rest = v := by rw [he, hv]
        refine ⟨v, ?_, ?_, rfl⟩
        · rw [outerLoop, hin, hf, hv1]
          rfl
        · rw [outerLoopNoBreak, hin, hv1]
          simp only
          apply outerLoopNoBreak_stable _ _ _ _ _ hmono1
          · right
            omega
          · have htake : v.take (passLen n i + 1) = c :: l := by
              rw [hv, ← hl]
              simp
            apply chain_take_of_le _ v (passLen n i + 1) _ (by omega)
            rw [htake]
            exact hc

theorem toInt_of_range (x : Int) (h0 : -2147483648 ≤ x) (h1 : x < 2147483648) :
    toInt x = x := by
  unfold toInt
  omega

theorem toInt_of_below (x : Int) (h0 : -6442450944 ≤ x) (h1 : x < -2147483648) :
    toInt x = x + 4294967296 := by
  unfold toInt
  omega

theorem toInt_eq_min (len : Nat) (h : toInt ((len : Nat) : Int) = -2147483648) :
    2147483648 ≤ len := by
  unfold toInt at h
  omega

theorem passLen_value (n : Int) (j : Nat) (hn0 : -2147483648 ≤ n) (hn1 : n < 2147483648)
    (hj : j ≤ (toInt (n - 1)).toNat) :
    (n ≠ -2147483648 ∧ (toInt (n - 1)).toNat = (n - 1).toNat ∧
        passLen n j = (n - (j : Int) - 1).toNat) ∨
      (n = -2147483648 ∧ (toInt (n - 1)).toNat = 2147483647 ∧
        passLen n j = 2147483647 - j) := by
  by_cases hmin : n = -2147483648
  · right
    have hc : toInt (n - 1) = 2147483647 := by
      rw [toInt_of_below (n - 1) (by omega) (by omega)]
      omega
    rw [hc] at hj
    refine ⟨hmin, by rw [hc]; rfl, ?_⟩
    unfold passLen
    by_cases hj0 : j = 0
    · rw [toInt_of_range (n - (j : Int)) (by omega) (by omega),
        toInt_of_below (n - (j : Int) - 1) (by omega) (by omega)]
      omega
    · rw [toInt_of_below (n - (j : Int)) (by omega) (by omega),
        toInt_of_range (n - (j : Int) + 4294967296 - 1) (by omega) (by omega)]
      omega
  · left
    have hc : toInt (n - 1) = n - 1 := toInt_of_range (n - 1) (by omega) (by omega)
    rw [hc] at hj
    refine ⟨hmin, by rw [hc], ?_⟩
    unfold passLen
    rw [toInt_of_range (n - (j : Int)) (by omega) (by omega),
      toInt_of_range (n - (j : Int) - 1) (by omega) (by omega)]

theorem passLen_mono (len : Nat) (j : Nat)
    (hj : j < (toInt (toInt ((len : Nat) : Int) - 1)).toNat) :
    passLen (toInt ((len : Nat) : Int)) (j + 1) ≤ passLen (toInt ((len : Nat) : Int)) j := by
  have hn0 := toInt_ge ((len : Nat) : Int)
  have hn1 := toInt_lt ((len : Nat) : Int)
  generalize toInt ((len : Nat) : Int) = n at *
  rcases passLen_value n j hn0 hn1 (by omega) with ⟨h1, _, h2⟩ | ⟨h1, _, h2⟩
  · rcases passLen_value n (j + 1) hn0 hn1 (by omega) with ⟨_, _, h4⟩ | ⟨h3, _, _⟩
    · rw [h2, h4]
      push_cast
      omega
    · exact absurd h3 h1
  · rcases passLen_value n (j + 1) hn0 hn1 (by omega) with ⟨h3, _, _⟩ | ⟨_, _, h4⟩
    · exact absurd h1 h3
    · rw [h2, h4]
      omega

theorem passLen_zero_bound (len : Nat) :
    passLen (toInt ((len : Nat) : Int)) 0 = 0 ∨
      passLen (toInt ((len : Nat) : Int)) 0 + 1 ≤ len := by
  have hn0 := toInt_ge ((len : Nat) : Int)
  have hn1 := toInt_lt ((len : Nat) : Int)
  have hle := toInt_le ((len : Nat) : Int) (by omega)
  rcases passLen_value (toInt ((len : Nat) : Int)) 0 hn0 hn1 (by omega) with
    ⟨_, _, h2⟩ | ⟨h1, _, h2⟩
  · rw [h2]
    omega
  · have := toInt_eq_min len h1
    rw [h2]
    omega

theorem loop_guards_in_bounds (len i j : Nat)
    (hi : (i : Int) < toInt (toInt ((len : Nat) : Int) - 1))
    (hj : (j : Int) < toInt (toInt (toInt ((len : Nat) : Int) - (i : Int)) - 1)) :
    j + 1 ≤ len - 1 := by
  have hn0 := toInt_ge ((len : Nat) : Int)
  have hn1 := toInt_lt ((len : Nat) : Int)
  have hle := toInt_le ((len : Nat) : Int) (by omega)
  have hjp : j < passLen (toInt ((len : Nat) : Int)) i := by
    unfold passLen
    omega
  rcases passLen_value (toInt ((len : Nat) : Int)) i hn0 hn1 (by omega) with
    ⟨_, _, h2⟩ | ⟨h1, _, h2⟩
  · rw [h2] at hjp
    omega
  · have := toInt_eq_min len h1
    rw [h2] at hjp
    omega

theorem BubbleSort_total (v : List Int) (order : Int) :
    ∃ w, BubbleSort v order = some w ∧ BubbleSortNoBreak v order = some w ∧
      w.length = v.length := by
  have hmono : ∀ j : Nat, 0 ≤ j → j < 0 + (toInt (toInt ((v.length : Nat) : Int) - 1)).toNat →
      passLen (toInt ((v.length : Nat) : Int)) (j + 1)
        ≤ passLen (toInt ((v.length : Nat) : Int)) j := by
    intro j _ hj
    rw [Nat.zero_add] at hj
    exact passLen_mono v.length j hj
  obtain ⟨w, h1, h2, h3⟩ := outerLoop_eq_noBreak order (toInt ((v.length : Nat) : Int))
    (toInt (toInt ((v.length : Nat) : Int) - 1)).toNat 0 v hmono (passLen_zero_bound v.length)
  refine ⟨w, ?_, ?_, h3⟩
  · unfold BubbleSort
    exact h1
  · unfold BubbleSortNoBreak
    exact h2

/-- C13: for every vector and every order value, `BubbleSort` with the early
exit returns exactly what the same algorithm without the check returns (all
passes run).  Moreover, in a state where the part behind the range of the
pass is sorted and dominates that range, a pass that makes no swap leaves
the vector as it was, and the vector is sorted in the requested order. -/
theorem C13_early_exit_is_optimisation (v : List Int) (order : Int) :
    BubbleSort v order = BubbleSortNoBreak v order ∧
    (∀ R : Int → Int → Prop, SortOrder order R →
      ∀ (c : Int) (l s : List Int), List.Pairwise R s → (∀ x ∈ c :: l, ∀ y ∈ s, R x y) →
      ∀ v1 : List Int, innerLoop order l.length 0 (c :: l ++ s, false) = some (v1, false) →
        v1 = c :: l ++ s ∧ List.Pairwise R v1) := by
  constructor
  · obtain ⟨w, h1, h2, _⟩ := BubbleSort_total v order
    rw [h1, h2]
  · intro R hR c l s hs hus v1 hin
    rw [innerLoop_bubble] at hin
    have hin1 := Option.some.inj hin
    have hf : (bubble order c l).2 = false := by
      have := congrArg Prod.snd hin1
      simpa using this
    obtain ⟨he, hp⟩ := bubble_no_swap order R hR c l hf
    have hv1 : v1 = c :: l ++ s := by
      have := congrArg Prod.fst hin1
      simp only [he] at this
      exact this.symm
    refine ⟨hv1, ?_⟩
    rw [hv1, List.pairwise_append]
    exact ⟨hp, hs, hus⟩

/-- C13 (witness): the vector `[2, 1, 3, 4]` in ascending order; after the
first pass the range `[1, 2]` in front of the sorted part `[3, 4]` is passed
without a swap. -/
theorem C13_early_exit_is_optimisation_witness :
    BubbleSort [2, 1, 3, 4] 1 = BubbleSortNoBreak [2, 1, 3, 4] 1 ∧
    ∀ v1 : List Int, innerLoop 1 ([2] : List Int).length 0 (1 :: [2] ++ [3, 4], false)
        = some (v1, false) →
      v1 = 1 :: [2] ++ [3, 4] ∧ List.Pairwise (fun a b => a ≤ b) v1 :=
  ⟨(C13_early_exit_is_optimisation [2, 1, 3, 4] 1).1,
   (C13_early_exit_is_optimisation [2, 1, 3, 4] 1).2 (fun a b => a ≤ b) sortOrder_asc
     1 [2] [3, 4] (by decide) (by decide)⟩

/-- C16: for every vector and every order value, `BubbleSort` returns
without an access outside the vector (in the embedding such an access makes
the call fail), with a vector of the same length; whenever the guards
`i < n - 1` and `j < n - i - 1` of the two loops hold, as `int` arithmetic
computes them, `j + 1 <= length - 1`; and for a vector of length `0` or `1`
no pass runs and the vector is returned as it was. -/
theorem C16_bubbleSort_in_bounds (v : List Int) (order : Int) :
    (∃ w, BubbleSort v order = some w ∧ w.length = v.length) ∧
    (∀ i j : Nat, (i : Int) < toInt (toInt ((v.length : Nat) : Int) - 1) →
      (j : Int) < toInt (toInt (toInt ((v.length : Nat) : Int) - (i : Int)) - 1) →
      j + 1 ≤ v.length - 1) ∧
    (v.length ≤ 1 →
      (toInt (toInt ((v.length : Nat) : Int) - 1)).toNat = 0 ∧
        BubbleSort v order = some v) := by
  refine ⟨?_, ?_, ?_⟩
  · obtain ⟨w, hw, _, hlen⟩ := BubbleSort_total v order
    exact ⟨w, hw, hlen⟩
  · intro i j hi hj
    exact loop_guards_in_bounds v.length i j hi hj
  · intro hlen
    have hsmall := toInt_of_small ((v.length : Nat) : Int) (by omega) (by omega)
    have hne : toInt ((v.length : Nat) : Int) ≠ INT_MIN := by
      unfold INT_MIN
      omega
    refine ⟨?_, BubbleSort_no_pass order v (by omega) hne⟩
    rw [hsmall]
    unfold toInt
    omega

/-- C16 (witness): a vector of five elements, where both loops run and
pairs are read and swapped, and a vector of one element, where no pass
runs. -/
theorem C16_bubbleSort_in_bounds_witness :
    (∃ w, BubbleSort [3, 1, 2, 5, 4] 1 = some w ∧
      w.length = ([3, 1, 2, 5, 4] : List Int).length) ∧
    ((toInt (toInt ((([5] : List Int).length : Nat) : Int) - 1)).toNat = 0 ∧
      BubbleSort [5] 1 = some [5]) :=
  ⟨(C16_bubbleSort_in_bounds [3, 1, 2, 5, 4] 1).1,
   (C16_bubbleSort_in_bounds [5] 1).2.2 (by decide)⟩

theorem BubbleSort_desc_eq_reverse (v : List Int) (hlen : v.length < 2147483648) :
    ∃ wa, BubbleSort v 1 = some wa ∧ BubbleSort v (-1) = some wa.reverse ∧
      wa.length = v.length ∧ wa.Perm v ∧ List.Pairwise (fun a b => a ≤ b) wa := by
  obtain ⟨wa, ha, hpa, hsa⟩ := BubbleSort_sorts 1 (fun a b => a ≤ b) sortOrder_asc v hlen
  obtain ⟨wd, hd, hpd, hsd⟩ := BubbleSort_sorts (-1) (fun a b => a ≥ b) sortOrder_desc v hlen
  have hrev : List.Pairwise (fun a b : Int => a ≤ b) wd.reverse := by
    rw [List.pairwise_reverse]
    exact hsd
  have hperm : wd.reverse.Perm wa := (List.reverse_perm wd).trans (hpd.trans hpa.symm)
  have heq : wd.reverse = wa :=
    List.eq_of_perm_of_sorted (r := fun a b : Int => a ≤ b) hperm hrev hsa
  refine ⟨wa, ha, ?_, hpa.length_eq, hpa, hsa⟩
  rw [hd, ← heq, List.reverse_reverse]

theorem BubbleSort_of_sorted (v : List Int) (hlen : v.length < 2147483648)
    (hs : List.Pairwise (fun a b => a ≤ b) v) : BubbleSort v 1 = some v := by
  obtain ⟨w, hw, hp, hsw⟩ := BubbleSort_sorts 1 (fun a b => a ≤ b) sortOrder_asc v hlen
  have heq : w = v := List.eq_of_perm_of_sorted (r := fun a b : Int => a ≤ b) hp hsw hs
  rw [hw, heq]

theorem reverse_ne_of_head (L : List Int) (hL : ∀ x ∈ L, x = 0) :
    (1 :: 0 :: L).reverse ≠ 1 :: 0 :: L := by
  intro h
  have h1 := congrArg List.head? h
  rw [List.head?_reverse, List.getLast?_cons_cons] at h1
  have h2 : (1 : Int) ∈ 0 :: L := List.mem_of_getLast?_eq_some h1
  rcases List.mem_cons.mp h2 with h3 | h3
  · exact absurd h3 (by decide)
  · exact absurd (hL 1 h3) (by decide)

/-- C15 (amended): for every vector of fewer than `2^31` integers, the
contents that `BubbleSort(v, -1)` produces are the reverse of the contents
that `BubbleSort(v, 1)` produces; and `BubbleSort(., -1)` applied to the
ascending result, as `main` does, returns that result reversed. -/
theorem C15_descending_is_reverse (v : List Int) (hlen : v.length < 2147483648) :
    ∃ wa, BubbleSort v 1 = some wa ∧ BubbleSort v (-1) = some wa.reverse ∧
      BubbleSort wa (-1) = some wa.reverse := by
  obtain ⟨wa, ha, hd, hl, _, hs⟩ := BubbleSort_desc_eq_reverse v hlen
  refine ⟨wa, ha, hd, ?_⟩
  obtain ⟨wb, hb, hbd, _⟩ := BubbleSort_desc_eq_reverse wa (by omega)
  have hwb : wb = wa := by
    have := BubbleSort_of_sorted wa (by omega) hs
    rw [hb] at this
    exact Option.some.inj this
  rw [hbd, hwb]

/-- C15 (witness): a vector of five elements. -/
theorem C15_descending_is_reverse_witness :
    ∃ wa, BubbleSort [3, 1, 2, 5, 4] 1 = some wa ∧
      BubbleSort [3, 1, 2, 5, 4] (-1) = some wa.reverse ∧
      BubbleSort wa (-1) = some wa.reverse :=
  C15_descending_is_reverse [3, 1, 2, 5, 4] (by decide)

/-- C15 (counterexample): for a vector of `2^31 + 2` elements that starts
`1, 0` and continues with zeros, no pass runs under either order, both calls
return the vector as it was, and it is not its own reverse. -/
theorem C15_counterexample :
    BubbleSort (1 :: 0 :: List.replicate 2147483648 0) 1
      = some (1 :: 0 :: List.replicate 2147483648 0) ∧
    BubbleSort (1 :: 0 :: List.replicate 2147483648 0) (-1)
      = some (1 :: 0 :: List.replicate 2147483648 0) ∧
    (1 :: 0 :: List.replicate 2147483648 (0 : Int)).reverse
      ≠ 1 :: 0 :: List.replicate 2147483648 0 := by
  have hn1 : toInt (((1 :: 0 :: List.replicate 2147483648 (0 : Int)).length : Nat) : Int)
      ≤ 1 := by
    rw [toInt_length_big]
    norm_num
  have hn2 : toInt (((1 :: 0 :: List.replicate 2147483648 (0 : Int)).length : Nat) : Int)
      ≠ INT_MIN := by
    rw [toInt_length_big]
    unfold INT_MIN
    norm_num
  refine ⟨BubbleSort_no_pass 1 _ hn1 hn2, BubbleSort_no_pass (-1) _ hn1 hn2, ?_⟩
  apply reverse_ne_of_head
  intro x hx
  exact (List.mem_replicate.mp hx).2

/-! ## Word reversal: blank input and repeated reversal -/

theorem wordsOf_blank (s : List Char) (hs : ∀ c ∈ s, isspace c = true) : wordsOf s = [] := by
  rw [← wordsOf_dropWhile, List.dropWhile_eq_nil_iff.mpr hs]
  rfl

theorem wordsOf_single (w : List Char) (hne : w ≠ []) (hw : ∀ c ∈ w, isspace c = false) :
    wordsOf w = [w] := by
  have hp : ∀ c ∈ w, (fun c => !isspace c) c = true := by
    intro c hc
    simp [hw c hc]
  have htw : w.takeWhile (fun c => !isspace c) = w := List.takeWhile_eq_self_iff.mpr hp
  have hdw : w.dropWhile (fun c => !isspace c) = [] := List.dropWhile_eq_nil_iff.mpr hp
  rw [wordsOf_word w (by rw [htw]; exact hne), htw, hdw]
  rfl

theorem wordsOf_word_space (w rest : List Char) (hne : w ≠ [])
    (hw : ∀ c ∈ w, isspace c = false) :
    wordsOf (w ++ [' '] ++ rest) = w :: wordsOf rest := by
  have hp : ∀ c ∈ w, (fun c => !isspace c) c = true := by
    intro c hc
    simp [hw c hc]
  have hsp : isspace ' ' = true := by decide
  have htw : (w ++ [' '] ++ rest).takeWhile (fun c => !isspace c) = w := by
    rw [List.append_assoc, List.takeWhile_append_of_pos hp]
    simp [List.takeWhile_cons, hsp]
  have hdw : (w ++ [' '] ++ rest).dropWhile (fun c => !isspace c) = ' ' :: rest := by
    rw [List.append_assoc, List.dropWhile_append_of_pos hp]
    simp [List.dropWhile_cons, hsp]
  rw [wordsOf_word _ (by rw [htw]; exact hne), htw, hdw, wordsOf_cons_space _ _ hsp]

theorem wordsOf_intercalate (L : List (List Char))
    (hL : ∀ w ∈ L, w ≠ [] ∧ ∀ c ∈ w, isspace c = false) :
    wordsOf (List.intercalate [' '] L) = L := by
  induction L with
  | nil => rfl
  | cons w t ih =>
    obtain ⟨hne, hw⟩ := hL w (List.mem_cons_self w t)
    cases t with
    | nil =>
      rw [intercalate_singleton]
      exact wordsOf_single w hne hw
    | cons x t =>
      rw [intercalate_cons_cons, wordsOf_word_space w _ hne hw,
        ih (fun w1 hw1 => hL w1 (List.mem_cons_of_mem w hw1))]

theorem reverseWords_take (s : List Char) :
    ∃ k, k ≤ (wordsOf s).length ∧ k ≤ 2147483648 ∧
      ((wordsOf s).length ≤ 2147483648 → k = (wordsOf s).length) ∧
      reverseWords s = some (List.intercalate [' '] ((wordsOf s).take k).reverse) := by
  refine ⟨(toInt (toSizeT (((wordsOf s).length : Int) - 1)) + 1).toNat, ?_, ?_, ?_, ?_⟩
  · unfold toInt toSizeT
    omega
  · unfold toInt toSizeT
    omega
  · intro h
    unfold toInt toSizeT
    omega
  · rw [reverseWords_eq, revLoop_eq]
    · rfl
    · unfold toInt toSizeT
      omega

theorem reverseWords_intercalate (L : List (List Char))
    (hL : ∀ w ∈ L, w ≠ [] ∧ ∀ c ∈ w, isspace c = false) (hlen : L.length ≤ 2147483648) :
    reverseWords (List.intercalate [' '] L) = some (List.intercalate [' '] L.reverse) := by
  obtain ⟨k, _, _, hk, hr⟩ := reverseWords_take (List.intercalate [' '] L)
  rw [wordsOf_intercalate L hL] at hk hr
  rw [hr, hk hlen, List.take_length]

theorem reverseWords_twice (L : List (List Char))
    (hL : ∀ w ∈ L, w ≠ [] ∧ ∀ c ∈ w, isspace c = false) (hlen : L.length ≤ 2147483648) :
    (reverseWords (List.intercalate [' '] L)).bind reverseWords
      = some (List.intercalate [' '] L) := by
  rw [reverseWords_intercalate L hL hlen, Option.some_bind,
    reverseWords_intercalate L.reverse
      (fun w hw => hL w (List.mem_reverse.mp hw)) (by simpa using hlen),
    List.reverse_reverse]

theorem reverseWords_sentence_big : reverseWords (sentence 2147483649) = some [] := by
  rw [reverseWords_eq, wordsOf_sentence, List.length_replicate]
  have hk : (toInt (toSizeT (((2147483649 : Nat) : Int) - 1)) + 1).toNat = 0 := by
    unfold toInt toSizeT
    norm_num
  rw [hk]
  rfl

theorem intercalate_sentence_ne_nil (n : Nat) (hn : 0 < n) :
    List.intercalate [' '] (wordsOf (sentence n)) ≠ [] := by
  rw [wordsOf_sentence]
  cases n with
  | zero => exact absurd hn (by decide)
  | succ m =>
    rw [List.replicate_succ]
    exact intercalate_ne_nil [' '] ['a'] _ (by simp)

/-! ## Claims on blank input and repeated reversal -/

/-- C18: for every string that is empty or holds only whitespace, the
splitting loop leaves the word list empty, the start index `words.size() - 1`
stored in the `int` is `-1`, the reversing loop has no iteration (so no word
is read), and `reverseWords` returns the empty string. -/
theorem C18_reverseWords_blank (s : List Char) (hs : ∀ c ∈ s, isspace c = true) :
    splitLoop (s.length + 1) s [] = [] ∧
    toInt (toSizeT (((splitLoop (s.length + 1) s []).length : Int) - 1)) = -1 ∧
    (toInt (toSizeT (((splitLoop (s.length + 1) s []).length : Int) - 1)) + 1).toNat = 0 ∧
    reverseWords s = some [] := by
  have hw : splitLoop (s.length + 1) s [] = [] := by
    rw [splitLoop_eq (s.length + 1) s [] (Nat.lt_succ_self _), wordsOf_blank s hs]
    rfl
  have hi : toInt (toSizeT (((([] : List (List Char)).length : Nat) : Int) - 1)) = -1 := by
    decide
  refine ⟨hw, ?_, ?_, ?_⟩
  · rw [hw]
    exact hi
  · rw [hw, hi]
    rfl
  · unfold reverseWords
    simp only [hw]
    rw [hi]
    rfl

/-- C18 (witness): a string of spaces, a tab and a newline. -/
theorem C18_reverseWords_blank_witness :
    reverseWords "  \t \n".toList = some [] :=
  (C18_reverseWords_blank "  \t \n".toList (by decide)).2.2.2

/-- C19 (amended): for every string of at most `2^31` words, reversing the
words twice gives the words in their original order joined by single spaces;
hence for every string that is at most `2^31` whitespace-free words joined
by single spaces, reversing twice gives the string back; and for every
string, reversing three times gives what reversing once gives. -/
theorem C19_reverseWords_involution (s : List Char) :
    ((wordsOf s).length ≤ 2147483648 →
      (reverseWords s).bind reverseWords = some (List.intercalate [' '] (wordsOf s))) ∧
    (∀ L : List (List Char), (∀ w ∈ L, w ≠ [] ∧ ∀ c ∈ w, isspace c = false) →
      L.length ≤ 2147483648 → s = List.intercalate [' '] L →
      (reverseWords s).bind reverseWords = some s) ∧
    ((reverseWords s).bind reverseWords).bind reverseWords = reverseWords s := by
  obtain ⟨k, hk1, hk2, hk3, hr⟩ := reverseWords_take s
  have hL : ∀ w ∈ ((wordsOf s).take k).reverse, w ≠ [] ∧ ∀ c ∈ w, isspace c = false :=
    fun w hw => wordsOf_mem s w (List.mem_of_mem_take (List.mem_reverse.mp hw))
  have hlen : (((wordsOf s).take k).reverse).length ≤ 2147483648 := by
    rw [List.length_reverse, List.length_take]
    omega
  refine ⟨?_, ?_, ?_⟩
  · intro hwords
    rw [hr, Option.some_bind, reverseWords_intercalate _ hL hlen, List.reverse_reverse,
      hk3 hwords, List.take_length]
  · intro L hLw hLlen hs
    rw [hs]
    exact reverseWords_twice L hLw hLlen
  · rw [hr, Option.some_bind, reverseWords_twice _ hL hlen]

/-- C19 (witness): a sentence of three words with leading, doubled and
trailing spaces. -/
theorem C19_reverseWords_involution_witness :
    (reverseWords "  hello  big world ".toList).bind reverseWords
      = some (List.intercalate [' '] (wordsOf "  hello  big world ".toList)) :=
  (C19_reverseWords_involution "  hello  big world ".toList).1 (by decide)

/-- C19 (counterexample): for the string of `2^31 + 1` words `a` the first
reversal is already empty, so reversing twice gives the empty string and not
the words joined by single spaces. -/
theorem C19_counterexample :
    (reverseWords (sentence 2147483649)).bind reverseWords = some [] ∧
    List.intercalate [' '] (wordsOf (sentence 2147483649)) ≠ [] := by
  constructor
  · rw [reverseWords_sentence_big, Option.some_bind]
    rfl
  · exact intercalate_sentence_ne_nil 2147483649 (by norm_num)

end Lesson5
